import Mathlib

/-!
Verification development for the COMP370 automata pipeline: a shallow
embedding, in Lean, of the regular-expression parser (pa3/regex.py,
pa3/helper_functions.py), the AST-to-NFA Thompson construction
(pa3/tree.py), the subset-construction NFA-to-DFA converter (pa4/nfa.py),
the DFA simulator and description-file reader (pa3/dfa.py), and the
maximal-munch lexer (pa4/lexer.py), together with theorems settling the
specification claims about them.

Python dicts are modelled as insertion-ordered association lists; Python
sets and frozensets of states as Finset Nat (dict and frozenset equality in
Python is order-insensitive, exactly like Finset equality); Python
exceptions as an explicit error type threaded through Except/Option; the
two unbounded while-loops of the subset construction carry an explicit fuel
argument, and theorems about them are conditional on the loop having
terminated within its fuel (in Python both loops always terminate, the fuel
is an artifact of the embedding, not of the program).
-/

set_option maxHeartbeats 1000000

namespace COMP370

/-- Association list standing in for a Python dict: insertion-ordered
key-value pairs, the first binding of a key being the live one. -/
abbrev PyDict (α β : Type) : Type := List (α × β)

/-- Python d.get(k) / d[k]: the first binding of the key, if any. -/
def dget? {α β : Type} [DecidableEq α] : PyDict α β → α → Option β
  | [], _ => none
  | (k, v) :: rest, a => if a = k then some v else dget? rest a

/-- Python d[k] = v: replace the first binding of the key in place,
otherwise append a new binding at the end. -/
def dset {α β : Type} [DecidableEq α] : PyDict α β → α → β → PyDict α β
  | [], a, b => [(a, b)]
  | (k, v) :: rest, a, b =>
      if a = k then (k, b) :: rest else (k, v) :: dset rest a b

/-- Python del d[k]: remove the first binding of the key. -/
def ddel {α β : Type} [DecidableEq α] : PyDict α β → α → PyDict α β
  | [], _ => []
  | (k, v) :: rest, a => if a = k then rest else (k, v) :: ddel rest a

theorem dget?_dset_self {α β : Type} [DecidableEq α]
    (d : PyDict α β) (a : α) (b : β) : dget? (dset d a b) a = some b := by
  induction d with
  | nil => simp [dset, dget?]
  | cons p rest ih =>
      obtain ⟨k, v⟩ := p
      by_cases h : a = k <;> simp [dset, dget?, h, ih]

theorem dget?_dset_ne {α β : Type} [DecidableEq α]
    (d : PyDict α β) (a a' : α) (b : β) (h : a' ≠ a) :
    dget? (dset d a b) a' = dget? d a' := by
  induction d with
  | nil => simp [dset, dget?, h]
  | cons p rest ih =>
      obtain ⟨k, v⟩ := p
      by_cases hk : a = k
      · subst hk; simp [dset, dget?, h]
      · by_cases h' : a' = k <;> simp [dset, dget?, hk, h', ih]

theorem dget?_ddel_ne {α β : Type} [DecidableEq α]
    (d : PyDict α β) (a a' : α) (h : a' ≠ a) :
    dget? (ddel d a) a' = dget? d a' := by
  induction d with
  | nil => simp [ddel]
  | cons p rest ih =>
      obtain ⟨k, v⟩ := p
      by_cases hk : a = k
      · subst hk; simp [ddel, dget?, h]
      · by_cases h' : a' = k <;> simp [ddel, dget?, hk, h', ih]

theorem mem_dset {α β : Type} [DecidableEq α]
    (d : PyDict α β) (a : α) (b : β) (p : α × β) (hp : p ∈ dset d a b) :
    p = (a, b) ∨ p ∈ d := by
  induction d with
  | nil => simpa [dset] using hp
  | cons q rest ih =>
      obtain ⟨k, v⟩ := q
      by_cases hk : a = k
      · subst hk
        simp only [dset, if_pos rfl] at hp
        rcases List.mem_cons.mp hp with h | h
        · exact Or.inl (by simpa using h)
        · exact Or.inr (List.mem_cons_of_mem _ h)
      · simp only [dset, if_neg hk] at hp
        rcases List.mem_cons.mp hp with h | h
        · exact Or.inr (List.mem_cons.mpr (Or.inl h))
        · rcases ih h with h' | h'
          · exact Or.inl h'
          · exact Or.inr (List.mem_cons_of_mem _ h')

theorem dget?_mem {α β : Type} [DecidableEq α]
    (d : PyDict α β) (a : α) (b : β) (h : dget? d a = some b) : (a, b) ∈ d := by
  induction d with
  | nil => simp [dget?] at h
  | cons p rest ih =>
      obtain ⟨k, v⟩ := p
      by_cases hk : a = k
      · subst hk
        have hv : v = b := by simpa [dget?] using h
        subst hv
        exact List.mem_cons_self _ _
      · simp only [dget?, if_neg hk] at h
        exact List.mem_cons_of_mem _ (ih h)

theorem dget?_append {α β : Type} [DecidableEq α]
    (d₁ d₂ : PyDict α β) (a : α) :
    dget? (d₁ ++ d₂) a =
      match dget? d₁ a with
      | some b => some b
      | none => dget? d₂ a := by
  induction d₁ with
  | nil => simp [dget?]
  | cons p rest ih =>
      obtain ⟨k, v⟩ := p
      by_cases hk : a = k <;> simp [dget?, hk, ih]

theorem dget?_isSome_of_mem_keys {α β : Type} [DecidableEq α]
    (d : PyDict α β) (a : α) (h : a ∈ d.map Prod.fst) :
    (dget? d a).isSome := by
  induction d with
  | nil => simp at h
  | cons p rest ih =>
      obtain ⟨k, v⟩ := p
      by_cases hk : a = k
      · simp [dget?, hk]
      · simp only [List.map_cons, List.mem_cons] at h
        rcases h with h | h
        · exact absurd h hk
        · simp [dget?, hk, ih h]

theorem dget?_isSome_iff_mem_keys {α β : Type} [DecidableEq α]
    (d : PyDict α β) (a : α) :
    (dget? d a).isSome ↔ a ∈ d.map Prod.fst := by
  constructor
  · intro h
    obtain ⟨b, hb⟩ := Option.isSome_iff_exists.mp h
    exact List.mem_map.mpr ⟨(a, b), dget?_mem d a b hb, rfl⟩
  · exact dget?_isSome_of_mem_keys d a

theorem dget?_map_shift {β : Type}
    (d : PyDict Nat β) (f : β → β) (a : Nat)
    (hk : ∀ p ∈ d, 2 ≤ p.1) :
    dget? (d.map (fun p => (p.1 - 1, f p.2))) a =
      if 1 ≤ a then (dget? d (a + 1)).map f else none := by
  induction d with
  | nil => simp [dget?]
  | cons p rest ih =>
      obtain ⟨k, v⟩ := p
      have hk2 : 2 ≤ k := hk (k, v) (List.mem_cons_self _ _)
      have ihr := ih (fun q hq => hk q (List.mem_cons_of_mem _ hq))
      by_cases ha : a = k - 1
      · subst ha
        have h1 : 1 ≤ k - 1 := by omega
        have h2 : k - 1 + 1 = k := by omega
        simp [dget?, h1, h2]
      · by_cases h1 : 1 ≤ a
        · have hne : ¬ a + 1 = k := by omega
          simp [dget?, ha, h1, hne, ihr]
        · simp [dget?, ha, h1, ihr]

/-- Insertion of a number into a sorted list, by structural recursion so
that the kernel can evaluate it. -/
def insertSorted (x : Nat) : List Nat → List Nat
  | [] => [x]
  | y :: ys => if x ≤ y then x :: y :: ys else y :: insertSorted x ys

theorem insertSorted_comm (x y : Nat) :
    ∀ l, insertSorted x (insertSorted y l) = insertSorted y (insertSorted x l)
  | [] => by
      by_cases hxy : x ≤ y
      · by_cases hyx : y ≤ x
        · have hE : x = y := Nat.le_antisymm hxy hyx
          subst hE; rfl
        · simp [insertSorted, hxy, hyx]
      · have hyx : y ≤ x := by omega
        simp [insertSorted, hxy, hyx]
  | z :: zs => by
      have ih := insertSorted_comm x y zs
      by_cases hxy : x ≤ y
      · by_cases hyx : y ≤ x
        · have hE : x = y := Nat.le_antisymm hxy hyx
          subst hE; rfl
        · by_cases hyz : y ≤ z
          · have hxz : x ≤ z := by omega
            simp [insertSorted, hyz, hxz, hxy, hyx]
          · by_cases hxz : x ≤ z
            · simp [insertSorted, hyz, hxz, hxy, hyx]
            · simp [insertSorted, hyz, hxz, ih]
      · have hyx : y ≤ x := by omega
        by_cases hxz : x ≤ z
        · have hyz : y ≤ z := by omega
          simp [insertSorted, hyz, hxz, hxy, hyx]
        · by_cases hyz : y ≤ z
          · simp [insertSorted, hyz, hxz, hxy, hyx]
          · simp [insertSorted, hyz, hxz, ih]

instance : LeftCommutative insertSorted := ⟨insertSorted_comm⟩

/-- A sorted enumeration of a multiset of numbers, well defined because
insertion sort is invariant under permutation of its input; being built
from structural recursion and Quotient.lift it evaluates inside the
kernel, unlike Multiset.sort. -/
def multisetAscList (s : Multiset Nat) : List Nat :=
  Quotient.lift (fun l : List Nat => l.foldr insertSorted [])
    (fun _ _ h => List.Perm.foldr_eq (by exact h) _) s

/-- A sorted enumeration of a finite set of numbers; it stands in for the
iteration order of a Python dict or frozenset of states (the results the
embedding takes from such iterations are order-insensitive). -/
def finsetAscList (S : Finset Nat) : List Nat := multisetAscList S.val

theorem mem_insertSorted (a x : Nat) :
    ∀ l, a ∈ insertSorted x l ↔ a = x ∨ a ∈ l
  | [] => by simp [insertSorted]
  | y :: ys => by
      by_cases hxy : x ≤ y
      · simp [insertSorted, hxy]
      · have := mem_insertSorted a x ys
        simp only [insertSorted, if_neg hxy, List.mem_cons, this]
        tauto

theorem mem_finsetAscList (a : Nat) (S : Finset Nat) :
    a ∈ finsetAscList S ↔ a ∈ S := by
  rcases S with ⟨val, nodup⟩
  induction val using Quotient.inductionOn with
  | h l =>
      show a ∈ l.foldr insertSorted [] ↔ _
      have : ∀ m : List Nat, a ∈ m.foldr insertSorted [] ↔ a ∈ m := by
        intro m
        induction m with
        | nil => simp
        | cons b bs ih => simp [mem_insertSorted, ih]
      rw [this l]
      simp [Finset.mem_mk, Multiset.mem_coe]

/-! ## pa4/nfa.py and pa3/dfa.py: the automaton data model

NFA states are natural numbers (the source uses opaque dict keys: the
integers produced by the Thompson construction).  The epsilon marker is the
character e, exactly as in the source. -/

/-- The DFA class of pa3/dfa.py in the shape produced by NFA.to_DFA:
integer states, transition table mapping state to symbol to state. -/
structure DFA where
  alphabet : List Char
  number_of_states : Nat
  transition_function : PyDict Nat (PyDict Char Nat)
  start_state : Nat
  accept_states : Finset Nat
  deriving DecidableEq

/-- DFA.transition: self.transition_function[state][symbol]; a missing
binding is a Python KeyError, modelled as none. -/
def DFA.transition (d : DFA) (state : Nat) (symbol : Char) : Option Nat := do
  let row ← dget? d.transition_function state
  dget? row symbol

/-- The state reached by DFA.simulate after consuming the input, starting
from the given state (none models a KeyError on a missing transition). -/
def DFA.simulate_from (d : DFA) : Nat → List Char → Option Nat
  | s, [] => some s
  | s, c :: cs => do
      let t ← d.transition s c
      d.simulate_from t cs

/-- DFA.simulate: run from the start state and test membership in the
accept set. -/
def DFA.simulate (d : DFA) (input : List Char) : Option Bool :=
  (d.simulate_from d.start_state input).map (fun s => decide (s ∈ d.accept_states))

/-- The NFA class of pa4/nfa.py: transition_function[state][symbol] is a
set of states, the symbol e marks epsilon moves. -/
structure NFA where
  alphabet : List Char
  transition_function : PyDict Nat (PyDict Char (Finset Nat))
  start_state : Nat
  accept_states : List Nat

/-- NFA._get_transition: the set of states reachable from a state on a
symbol, empty when the state or the symbol has no entry. -/
def NFA.get_transition (n : NFA) (state : Nat) (symbol : Char) : Finset Nat :=
  match dget? n.transition_function state with
  | none => ∅
  | some row => (dget? row symbol).getD ∅

/-- The queue-driven loop of NFA._get_epsilon_closure.  The seen set is
grown when a state is popped; successors on the epsilon marker that are not
yet seen are appended to the queue (the source iterates the successor dict;
we list the successor set in increasing order, which only fixes the
traversal order, not the resulting set).  Fuel bounds the number of loop
iterations; in the source the loop always terminates. -/
def NFA.get_epsilon_closure_loop (n : NFA) :
    Nat → List Nat → Finset Nat → Option (Finset Nat)
  | _, [], seen => some seen
  | 0, _ :: _, _ => none
  | fuel + 1, curr :: rest, seen =>
      let seen' := insert curr seen
      let eps := n.get_transition curr 'e'
      let fresh := finsetAscList (eps.filter (fun t => t ∉ seen'))
      n.get_epsilon_closure_loop fuel (rest ++ fresh) seen'

/-- NFA._get_epsilon_closure of a single state. -/
def NFA.get_epsilon_closure (n : NFA) (fuel : Nat) (state : Nat) :
    Option (Finset Nat) :=
  n.get_epsilon_closure_loop fuel [state] ∅

/-- NFA._get_transition_for_states_set: union of the one-symbol transitions
of every member of the set. -/
def NFA.get_transition_for_states_set (n : NFA) (S : Finset Nat) (symbol : Char) :
    Finset Nat :=
  S.biUnion (fun s => n.get_transition s symbol)

/-- NFA._get_epsilon_closure_for_states_set: union of the epsilon closures
of every member of the set. -/
def NFA.get_epsilon_closure_for_states_set (n : NFA) (fuel : Nat) (S : Finset Nat) :
    Option (Finset Nat) :=
  (finsetAscList S).foldlM
    (fun acc s => (n.get_epsilon_closure fuel s).map (fun c => acc ∪ c)) ∅

/-- One pass of the for-symbol loop in the body of NFA._nfa_conversion:
for the state set being handled, compute for every alphabet symbol the
destination set (direct transitions plus their epsilon closure), record the
row, collect the nonempty destinations to be enqueued (in symbol order, as
the source appends them), and note whether the empty set was produced. -/
def convProcessSymbols (n : NFA) (clFuel : Nat) (S : Finset Nat) :
    List Char → Option (PyDict Char (Finset Nat) × List (Finset Nat) × Bool)
  | [] => some ([], [], false)
  | c :: cs => do
      let ts := n.get_transition_for_states_set S c
      let cl ← n.get_epsilon_closure_for_states_set clFuel ts
      let dest := ts ∪ cl
      let (row, adds, fe) ← convProcessSymbols n clFuel S cs
      some ((c, dest) :: row,
            (if dest = (∅ : Finset Nat) then adds else dest :: adds),
            ((dest = (∅ : Finset Nat) : Prop) || fe : Bool))

/-- The mutable state of the while-loop of NFA._nfa_conversion. -/
structure ConvState where
  queue : List (Finset Nat)
  states_handled : List (Finset Nat)
  mapping : PyDict (Finset Nat) Nat
  revMapping : PyDict Nat (Finset Nat)
  next_state_id : Nat
  tf : PyDict Nat (PyDict Char (Finset Nat))
  number_of_states : Nat
  found_empty : Bool

/-- The while-loop of NFA._nfa_conversion.  A popped state set already in
states_handled is skipped; otherwise its row is computed, its DFA id is the
mapped one when the set is already in the mapping (only the pre-seeded
start closure can be) and the next fresh id otherwise, and all mutable
state is advanced exactly as in the source. -/
def convLoop (n : NFA) (clFuel : Nat) : Nat → ConvState → Option ConvState
  | 0, st => match st.queue with | [] => some st | _ :: _ => none
  | fuel + 1, st =>
      match st.queue with
      | [] => some st
      | S :: rest =>
          if S ∈ st.states_handled then
            convLoop n clFuel fuel { st with queue := rest }
          else do
            let (row, adds, fe) ← convProcessSymbols n clFuel S n.alphabet
            let (set_id, mapping', rev') :=
              match dget? st.mapping S with
              | some i => (i, st.mapping, st.revMapping)
              | none => (st.next_state_id, dset st.mapping S st.next_state_id,
                         dset st.revMapping st.next_state_id S)
            convLoop n clFuel fuel {
              queue := rest ++ adds
              states_handled := st.states_handled ++ [S]
              mapping := mapping'
              revMapping := rev'
              next_state_id := st.next_state_id + 1
              tf := dset st.tf set_id row
              number_of_states := st.number_of_states + 1
              found_empty := st.found_empty || fe }

/-- What NFA._nfa_conversion leaves behind for NFA._finalize_dfa.  The
still-set-valued transition rows are kept in tf; the reject row of state 1
(integer-valued in the source, written into the same dict at the end of
_nfa_conversion when found_empty holds) is materialised by the finalizer
below, keyed after all handled states just as the source appends it. -/
structure ConvOut where
  mapping : PyDict (Finset Nat) Nat
  revMapping : PyDict Nat (Finset Nat)
  tf : PyDict Nat (PyDict Char (Finset Nat))
  number_of_states : Nat
  start_state : Nat
  found_empty : Bool

/-- The initial loop state set up by NFA._nfa_conversion: reject state 1 is
pre-registered as the empty set, the start closure as state 2. -/
def convInit (startSet : Finset Nat) : ConvState :=
  { queue := [startSet]
    states_handled := []
    mapping := dset (dset [] (∅ : Finset Nat) 1) startSet 2
    revMapping := dset (dset [] 1 (∅ : Finset Nat)) 2 startSet
    next_state_id := 2
    tf := []
    number_of_states := 1
    found_empty := false }

/-- NFA._nfa_conversion: run the loop, then either prune the never-reached
reject state (deleting its mapping entries, decrementing the state count
and the start state) or keep it. -/
def NFA.nfa_conversion (n : NFA) (clFuel loopFuel : Nat) (startSet : Finset Nat) :
    Option ConvOut := do
  let stF ← convLoop n clFuel loopFuel (convInit startSet)
  if stF.found_empty = false then
    some { mapping := ddel stF.mapping (∅ : Finset Nat)
           revMapping := ddel stF.revMapping 1
           tf := stF.tf
           number_of_states := stF.number_of_states - 1
           start_state := 2 - 1
           found_empty := false }
  else
    some { mapping := stF.mapping
           revMapping := stF.revMapping
           tf := stF.tf
           number_of_states := stF.number_of_states
           start_state := 2
           found_empty := true }

/-- NFA._generate_shifted_transition_value: shift the integer values of a
row down by one. -/
def generate_shifted_transition_value (row : PyDict Char Nat) : PyDict Char Nat :=
  row.map (fun p => (p.1, p.2 - 1))

/-- NFA._generate_shifted_keys_dict with should_shift_values = True. -/
def generate_shifted_keys_dict (tf : PyDict Nat (PyDict Char Nat)) :
    PyDict Nat (PyDict Char Nat) :=
  tf.map (fun p => (p.1 - 1, generate_shifted_transition_value p.2))

/-- Converting one still-set-valued row to integer destinations, symbol by
symbol over the alphabet, through the set-to-int mapping (the source
overwrites row[symbol] for every alphabet symbol; a row produced by the
conversion has exactly the alphabet as its keys, in the same order).  A
missing binding would be a Python KeyError, modelled as none. -/
def convertRowM (mapping : PyDict (Finset Nat) Nat) (row : PyDict Char (Finset Nat)) :
    List Char → Option (PyDict Char Nat)
  | [] => some []
  | c :: cs => do
      let fs ← dget? row c
      let i ← dget? mapping fs
      let rest ← convertRowM mapping row cs
      some ((c, i) :: rest)

/-- NFA._finalize_dfa: decide acceptance of every DFA state through the
reverse mapping (a state accepts iff its NFA-state set meets the NFA accept
set), convert every non-reject row to integer destinations, materialise the
reject self-loop row when found_empty holds, and finally shift every key
and destination down by one when state 1 is absent from the table. -/
def NFA.finalize_dfa (n : NFA) (co : ConvOut) : Option DFA := do
  let allKeys := (co.tf.map Prod.fst) ++ (if co.found_empty then [1] else [])
  let accept ← allKeys.foldlM
    (fun (acc : Finset Nat) k => do
      let S ← dget? co.revMapping k
      pure (if ∃ s ∈ S, s ∈ n.accept_states then insert k acc else acc)) ∅
  let rows ← co.tf.mapM
    (fun p => do
      let r ← convertRowM co.mapping p.2 n.alphabet
      pure (p.1, r))
  let tfInt := rows ++
    (if co.found_empty then [(1, n.alphabet.map (fun c => (c, 1)))] else [])
  let (tfFinal, acceptFinal) :=
    if (dget? tfInt 1).isSome then (tfInt, accept)
    else (generate_shifted_keys_dict tfInt, accept.image (fun s => s - 1))
  some { alphabet := n.alphabet
         number_of_states := co.number_of_states
         transition_function := tfFinal
         start_state := co.start_state
         accept_states := acceptFinal }

/-- NFA.to_DFA, with the found_empty flag of the conversion exposed
alongside the DFA (the flag records whether the reject state was kept). -/
def NFA.to_DFA_full (n : NFA) (clFuel loopFuel : Nat) : Option (DFA × Bool) := do
  let sc ← n.get_epsilon_closure clFuel n.start_state
  let co ← n.nfa_conversion clFuel loopFuel sc
  let d ← n.finalize_dfa co
  some (d, co.found_empty)

/-- NFA.to_DFA. -/
def NFA.to_DFA (n : NFA) (clFuel loopFuel : Nat) : Option DFA :=
  (n.to_DFA_full clFuel loopFuel).map Prod.fst

/-! ## pa3/tree.py: AST nodes and the Thompson construction -/

/-- Python exceptions raised (or leaked) by the regex/DFA code. -/
inductive PyErr where
  | invalidExpression
  | indexError
  | keyError
  | formatError
  deriving DecidableEq, Repr

/-- The Node class of pa3/tree.py: value, ordered children, type tag
(0 operand, 1 operator), is_symbol flag. -/
inductive Node where
  | mk (value : String) (children : List Node) (type : Nat) (is_symbol : Bool)

def Node.value : Node → String | .mk v _ _ _ => v
def Node.children : Node → List Node | .mk _ ch _ _ => ch
def Node.type : Node → Nat | .mk _ _ ty _ => ty
def Node.is_symbol : Node → Bool | .mk _ _ _ b => b

/-- Node.add_child: append, or insert at the front when insert holds (used
so that the first operand popped becomes the rightmost child). -/
def Node.add_child (n : Node) (child : Node) (insert : Bool) : Node :=
  match n with
  | .mk v [] ty sym => .mk v [child] ty sym
  | .mk v (c :: cs) ty sym =>
      if insert then .mk v (child :: c :: cs) ty sym
      else .mk v ((c :: cs) ++ [child]) ty sym

/-- The SimpleNFA class of pa3/tree.py. -/
structure SimpleNFA where
  transition_function : PyDict Nat (PyDict Char (Finset Nat))
  accept_states : List Nat
  start_state : Nat
  last_state : Nat
  deriving DecidableEq

/-- Python dict.update: write every binding of the second dict into the
first, in order. -/
def dupdate {α β : Type} [DecidableEq α] (d other : PyDict α β) : PyDict α β :=
  other.foldl (fun acc p => dset acc p.1 p.2) d

/-- The single character of a one-character Python string (every Node value
reaching base_node_to_nfa is one character). -/
def pyStrHead (s : String) : Char := s.toList.headD ' '

/-- tree.py epsilon_node_to_nfa. -/
def epsilon_node_to_nfa (last_state : Nat) : SimpleNFA :=
  { transition_function := []
    accept_states := [last_state + 1]
    start_state := last_state + 1
    last_state := last_state + 1 }

/-- tree.py empty_set_to_nfa. -/
def empty_set_to_nfa (last_state : Nat) : SimpleNFA :=
  { transition_function := []
    accept_states := []
    start_state := last_state + 1
    last_state := last_state + 1 }

/-- tree.py union_to_nfa: merge both transition tables, add a fresh state
with epsilon edges to both starts. -/
def union_to_nfa (left_nfa right_nfa : SimpleNFA) : SimpleNFA :=
  let tf := dupdate (dupdate [] left_nfa.transition_function)
      right_nfa.transition_function
  let new_state := right_nfa.last_state + 1
  let tf := dset tf new_state
      [('e', ({left_nfa.start_state, right_nfa.start_state} : Finset Nat))]
  { transition_function := tf
    accept_states := left_nfa.accept_states ++ right_nfa.accept_states
    start_state := new_state
    last_state := new_state }

/-- tree.py kleene_star_to_nfa: fresh state with an epsilon edge to the
operand start; then, for every accept state of the operand, the whole
transition entry of that state is ASSIGNED to a single epsilon edge back to
the operand start (the source overwrites transition_function[state]
wholesale rather than merging into an existing entry). -/
def kleene_star_to_nfa (nfa : SimpleNFA) : SimpleNFA :=
  let tf := dupdate [] nfa.transition_function
  let new_state := nfa.last_state + 1
  let tf := dset tf new_state [('e', ({nfa.start_state} : Finset Nat))]
  let tf := nfa.accept_states.foldl
      (fun acc state => dset acc state [('e', ({nfa.start_state} : Finset Nat))]) tf
  { transition_function := tf
    accept_states := nfa.accept_states ++ [new_state]
    start_state := new_state
    last_state := new_state }

/-- tree.py concat_to_nfa: merge both tables, then connect every accept
state of the left NFA to the start of the right one: a state with no entry
or no epsilon entry gets a fresh single-epsilon entry, otherwise the start
of the right NFA is merged into its existing epsilon set. -/
def concat_to_nfa (left_nfa right_nfa : SimpleNFA) : SimpleNFA :=
  let tf := dupdate (dupdate [] left_nfa.transition_function)
      right_nfa.transition_function
  let tf := left_nfa.accept_states.foldl
      (fun acc state =>
        match dget? acc state with
        | none => dset acc state [('e', ({right_nfa.start_state} : Finset Nat))]
        | some row =>
            match dget? row 'e' with
            | none => dset acc state [('e', ({right_nfa.start_state} : Finset Nat))]
            | some es => dset acc state (dset row 'e' (insert right_nfa.start_state es)))
      tf
  { transition_function := tf
    accept_states := right_nfa.accept_states
    start_state := left_nfa.start_state
    last_state := right_nfa.last_state }

/-- tree.py base_node_to_nfa: two fresh states joined by one edge on the
symbol carried by the node. -/
def base_node_to_nfa (node : Node) (last_state : Nat) : SimpleNFA :=
  let state_1 := last_state + 1
  let state_2 := last_state + 2
  { transition_function := [(state_1, [(pyStrHead node.value, ({state_2} : Finset Nat))])]
    accept_states := [state_2]
    start_state := state_1
    last_state := state_2 }

/-- The concatenation operator U+2218 that the parser and
helper_functions.py use. -/
def concatOp : String := "∘"

/-- The operator string that tree.py line 235 compares node values with.
In the source file those bytes are the concatenation operator U+2218 as
mis-decoded text: the three characters U+00E2, U+02C6, U+02DC, not the
single character U+2218 that the parser stores in concatenation nodes. -/
def treeConcatLiteral : String := "âˆ˜"

/-- tree.py depth_first_recursive.  A non-symbol leaf is the N or e base
case (anything else falls through to the bottom symbol case); an operator
node dispatches on its value; note that the concatenation comparison uses
treeConcatLiteral, so a node whose value is concatOp matches no branch and
falls through to base_node_to_nfa.  A binary operator node with fewer than
two children would raise IndexError in the source; that shape is
unreachable from the parser and falls to the bottom case here. -/
def depth_first_recursive : Node → Nat → SimpleNFA
  | node@(.mk v ch _ isSym), last_state =>
      if isSym = false then
        match ch with
        | [] =>
            if v = "N" then empty_set_to_nfa last_state
            else if v = "e" then epsilon_node_to_nfa last_state
            else base_node_to_nfa node last_state
        | c0 :: rest =>
            if v = "*" then kleene_star_to_nfa (depth_first_recursive c0 last_state)
            else
              match rest with
              | c1 :: _ =>
                  let left_nfa := depth_first_recursive c0 last_state
                  let right_nfa := depth_first_recursive c1 left_nfa.last_state
                  if v = "|" then union_to_nfa left_nfa right_nfa
                  else if v = treeConcatLiteral then concat_to_nfa left_nfa right_nfa
                  else base_node_to_nfa node last_state
              | [] => base_node_to_nfa node last_state
      else base_node_to_nfa node last_state

/-- tree.py depth_first. -/
def depth_first (root : Node) : SimpleNFA :=
  depth_first_recursive root 0

/-! ## pa3/helper_functions.py: tokenize and insert_concat -/

/-- The reserved one-character class of the tokenizer pattern. -/
def reservedChars : List Char := ['e', 'N', '|', '*', '(', ')']

/-- The characters that may follow a backslash in the first pattern
alternative. -/
def escapableChars : List Char := ['N', '|', '(', ')', '*']

/-- helper_functions.py tokenize: re.findall over the pattern whose
ordered alternatives are (1) a backslash followed by one of N | ( ) *,
(2) a doubled backslash, (3) one reserved character, (4) one alphabet
character outside the reserved class; positions matching no alternative
are skipped. -/
def tokenize (alphabet : List Char) : List Char → List String
  | [] => []
  | [c] =>
      if c = '\\' then (if c ∈ alphabet then [String.mk [c]] else [])
      else if c ∈ reservedChars then [String.mk [c]]
      else if c ∈ alphabet then [String.mk [c]]
      else []
  | c :: d :: ds =>
      if c = '\\' then
        if d ∈ escapableChars then String.mk [c, d] :: tokenize alphabet ds
        else if d = '\\' then String.mk [c, d] :: tokenize alphabet ds
        else if c ∈ alphabet then String.mk [c] :: tokenize alphabet (d :: ds)
        else tokenize alphabet (d :: ds)
      else if c ∈ reservedChars then String.mk [c] :: tokenize alphabet (d :: ds)
      else if c ∈ alphabet then String.mk [c] :: tokenize alphabet (d :: ds)
      else tokenize alphabet (d :: ds)

/-- Python token in alphabet, where the alphabet holds one-character
strings. -/
def tokInAlphabet (alphabet : List Char) (t : String) : Bool :=
  match t.toList with
  | [c] => c ∈ alphabet
  | _ => false

/-- The special symbols of insert_concat. -/
def insertConcatSpecial : List String := ["(", ")", "*", "|"]

/-- Whether the next token is a literal, an escape, or an opening
parenthesis: the inner condition shared by all three branches of
insert_concat. -/
def nextStartsOperand (alphabet : List Char) (next : String) : Bool :=
  1 < next.length
    || (tokInAlphabet alphabet next && ¬ next ∈ insertConcatSpecial)
    || next = "("

/-- The full branch structure of insert_concat for one adjacent token
pair. -/
def insertConcatCond (alphabet : List Char) (t next : String) : Bool :=
  if 1 < t.length || (tokInAlphabet alphabet t && ¬ t ∈ insertConcatSpecial) then
    nextStartsOperand alphabet next
  else if t = ")" then nextStartsOperand alphabet next
  else if t = "*" then nextStartsOperand alphabet next
  else false

/-- helper_functions.py insert_concat. -/
def insert_concat (alphabet : List Char) : List String → List String
  | [] => []
  | [t] => [t]
  | t :: next :: rest =>
      if insertConcatCond alphabet t next
      then t :: concatOp :: insert_concat alphabet (next :: rest)
      else t :: insert_concat alphabet (next :: rest)

/-! ## pa3/regex.py: the shunting-yard parser and the RegEx class -/

/-- The precedence table of _check_operator_prescedence. -/
def prescedenceMapping : PyDict String Nat :=
  [("(", 3), (")", 3), ("*", 2), (concatOp, 1), ("|", 0)]

/-- _check_operator_prescedence: the operator of the two whose precedence
is at least the precedence of the other, ties resolved to the second; a
missing table entry is a Python KeyError. -/
def check_operator_prescedence (operator1 operator2 : String) : Option String := do
  let p1 ← dget? prescedenceMapping operator1
  let p2 ← dget? prescedenceMapping operator2
  pure (if p1 ≤ p2 then operator2 else operator1)

/-- The operator arity table of the RegEx class. -/
def operator_operand_mapping : PyDict String Nat :=
  [(concatOp, 2), ("*", 1), ("|", 2)]

/-- Pop the given number of operands off the operand stack, in pop order;
an underflow is a Python IndexError. -/
def popOperands : Nat → List Node → Except PyErr (List Node × List Node)
  | 0, ands => .ok ([], ands)
  | _ + 1, [] => .error .indexError
  | k + 1, a :: ands => do
      let (ps, rest) ← popOperands k ands
      .ok (a :: ps, rest)

/-- Attach popped operands to a fresh operator node with add_child in
insert mode, so the first popped operand ends up the rightmost child. -/
def buildOperatorNode (op : String) (popped : List Node) : Node :=
  popped.foldl (fun n child => n.add_child child true) (Node.mk op [] 1 false)

/-- The while-loop of the closing-parenthesis branch of _parse_regex,
entered on the whole operator stack (the source pops the first operator
before the loop; here the head of the list is that operator): reduce until
an opening parenthesis is found, with NO length check before popping
operands (an underflow is an IndexError, not InvalidExpression); popping
an emptied operator stack raises InvalidExpression. -/
def parenReduceLoop : List String → List Node →
    Except PyErr (List String × List Node)
  | [], _ => .error .invalidExpression
  | op :: ops, ands =>
      if op = "(" then .ok (ops, ands)
      else do
        let n ← match dget? operator_operand_mapping op with
                | some n => Except.ok n
                | none => Except.error PyErr.keyError
        let (popped, ands') ← popOperands n ands
        let node := buildOperatorNode op popped
        parenReduceLoop ops (node :: ands')

/-- The while-loop of the operator branch of _parse_regex: reduce while
the stack top has precedence at least that of the incoming token and is
not an opening parenthesis, with a length check that raises
InvalidExpression on too few operands. -/
def opPrecLoop (token : String) : List String → List Node →
    Except PyErr (List String × List Node)
  | [], ands => .ok ([], ands)
  | top :: rest, ands => do
      let hp ← match check_operator_prescedence token top with
               | some s => Except.ok s
               | none => Except.error PyErr.keyError
      if hp = top ∧ top ≠ "(" then do
        let n ← match dget? operator_operand_mapping top with
                | some n => Except.ok n
                | none => Except.error PyErr.keyError
        if ands.length < n then .error .invalidExpression
        else do
          let (popped, ands') ← popOperands n ands
          let node := buildOperatorNode top popped
          opPrecLoop token rest (node :: ands')
      else .ok (top :: rest, ands)

/-- The special-symbol list of _parse_regex (note it includes N). -/
def parseSpecialSymbols : List String := ["(", ")", "*", "|", "N"]

/-- One iteration of the token loop of _parse_regex, acting on the operand
and operator stacks.  A closing parenthesis on an empty operator stack is
silently ignored, exactly as in the source. -/
def parseStep (alphabet : List Char) (st : List Node × List String) (token : String) :
    Except PyErr (List Node × List String) :=
  let (ands, ops) := st
  if (tokInAlphabet alphabet token ∧ ¬ token ∈ parseSpecialSymbols)
      ∨ 1 < token.length ∨ token = "e" ∨ token = "N" then
    let isSym : Bool := token ≠ "e" && token ≠ "N"
    let tok := if 1 < token.length then String.mk [token.toList.getLastD ' '] else token
    .ok (Node.mk tok [] 0 isSym :: ands, ops)
  else if token = "(" then .ok (ands, token :: ops)
  else if token = ")" then
    match ops with
    | [] => .ok (ands, ops)
    | op :: rest => do
        let (ops', ands') ← parenReduceLoop (op :: rest) ands
        .ok (ands', ops')
  else if token = "*" ∨ token = "|" ∨ token = concatOp then
    match ops with
    | [] => .ok (ands, [token])
    | _ :: _ => do
        let (ops', ands') ← opPrecLoop token ops ands
        .ok (ands', token :: ops')
  else .ok (ands, ops)

/-- _parse_regex: tokenize, insert implicit concatenation, then fold the
token loop over empty stacks. -/
def parse_regex (alphabet : List Char) (regex : List Char) :
    Except PyErr (List Node × List String) :=
  let toks := insert_concat alphabet (tokenize alphabet regex)
  toks.foldlM (parseStep alphabet) ([], [])

/-- _empty_operator_stack: reduce the remaining operator stack (an opening
parenthesis raises InvalidExpression, too few operands raises
InvalidExpression), then pop the root operand (an empty operand stack is
an IndexError). -/
def empty_operator_stack : List String → List Node → Except PyErr Node
  | [], ands =>
      match ands with
      | root :: _ => .ok root
      | [] => .error .indexError
  | op :: rest, ands =>
      if op = "(" then .error .invalidExpression
      else do
        let n ← match dget? operator_operand_mapping op with
                | some n => Except.ok n
                | none => Except.error PyErr.keyError
        if ands.length < n then .error .invalidExpression
        else do
          let (popped, ands') ← popOperands n ands
          let node := buildOperatorNode op popped
          empty_operator_stack rest (node :: ands')

/-- RegEx._finalize_simple_nfa: wrap a SimpleNFA as an NFA with the regex
alphabet. -/
def finalize_simple_nfa (alphabet : List Char) (m : SimpleNFA) : NFA :=
  { alphabet := alphabet
    transition_function := m.transition_function
    start_state := m.start_state
    accept_states := m.accept_states }

/-- The RegEx class after __init__. -/
structure RegEx where
  alphabet : List Char
  regex_string : List Char
  invalid : Bool
  root_node : Option Node
  nfa : Option NFA

/-- RegEx.__init__ on an alphabet and regex string: parse and build the
NFA inside a try that catches only InvalidExpression (which merely marks
the regex invalid); any other exception (IndexError, KeyError) escapes. -/
def RegEx.init (alphabet : List Char) (regex : List Char) : Except PyErr RegEx :=
  match (do
      let st ← parse_regex alphabet regex
      let root ← empty_operator_stack st.2 st.1
      Except.ok root) with
  | .ok root =>
      let m := depth_first root
      let n := finalize_simple_nfa alphabet m
      .ok { alphabet := alphabet, regex_string := regex, invalid := false,
            root_node := some root, nfa := some n }
  | .error .invalidExpression =>
      .ok { alphabet := alphabet, regex_string := regex, invalid := true,
            root_node := none, nfa := none }
  | .error e => .error e

/-- RegEx.simulate: an invalid regex reports False; otherwise convert the
stored NFA to a DFA and simulate. -/
def RegEx.simulate (r : RegEx) (s : List Char) (clFuel loopFuel : Nat) : Option Bool :=
  if r.invalid then some false
  else do
    let n ← r.nfa
    let d ← n.to_DFA clFuel loopFuel
    d.simulate s

/-- The whole pipeline of the claims: build the RegEx, then simulate the
string, with uncaught Python exceptions surfaced in the Except layer. -/
def regexPipeline (alphabet : List Char) (regex input : List Char)
    (clFuel loopFuel : Nat) : Except PyErr (Option Bool) :=
  (RegEx.init alphabet regex).map (fun r => r.simulate input clFuel loopFuel)

/-! ## Claim theorems about the regex pipeline (C1, C4, C10) -/

theorem foldl_dset_const_not_mem {α β : Type} [DecidableEq α]
    (l : List α) (d : PyDict α β) (s : α) (v : β) (hs : s ∉ l) :
    dget? (l.foldl (fun acc st => dset acc st v) d) s = dget? d s := by
  induction l generalizing d with
  | nil => rfl
  | cons t ts ih =>
      have hst : s ≠ t := fun h => hs (h ▸ List.mem_cons_self t ts)
      have hts : s ∉ ts := fun h => hs (List.mem_cons_of_mem t h)
      simp only [List.foldl_cons]
      rw [ih _ hts, dget?_dset_ne _ _ _ _ hst]

theorem foldl_dset_const_mem {α β : Type} [DecidableEq α]
    (l : List α) (d : PyDict α β) (s : α) (v : β) (hs : s ∈ l) :
    dget? (l.foldl (fun acc st => dset acc st v) d) s = some v := by
  induction l generalizing d with
  | nil => cases hs
  | cons t ts ih =>
      simp only [List.foldl_cons]
      by_cases hts : s ∈ ts
      · exact ih _ hts
      · have hst : s = t := by
          rcases List.mem_cons.mp hs with h | h
          · exact h
          · exact absurd h hts
        subst hst
        rw [foldl_dset_const_not_mem _ _ _ _ hts, dget?_dset_self]

/-- C10: kleene_star_to_nfa assigns, to every accept state of its operand,
the single-epsilon-edge entry pointing at the operand start state as that
state's ENTIRE transition entry; whatever entry the state had before is
discarded, not merged. -/
theorem kleene_star_overwrites_accept_entries
    (m : SimpleNFA) (s : Nat) (hs : s ∈ m.accept_states) :
    dget? (kleene_star_to_nfa m).transition_function s =
      some [('e', ({m.start_state} : Finset Nat))] := by
  unfold kleene_star_to_nfa
  exact foldl_dset_const_mem _ _ _ _ hs

/-- A SimpleNFA whose accept state 2 already carries an epsilon entry to
state 5; kleene_star_to_nfa replaces that entry outright. -/
def c10nfa : SimpleNFA :=
  { transition_function := [(2, [('e', ({5} : Finset Nat))])]
    accept_states := [2]
    start_state := 1
    last_state := 5 }

/-- Witness for C10: on c10nfa, the pre-existing epsilon entry of accept
state 2 (pointing at 5) is discarded in favour of the edge to start
state 1. -/
theorem kleene_star_overwrites_accept_entries_witness :
    2 ∈ c10nfa.accept_states ∧
      dget? (kleene_star_to_nfa c10nfa).transition_function 2 =
        some [('e', ({1} : Finset Nat))] :=
  ⟨by decide, kleene_star_overwrites_accept_entries c10nfa 2 (by decide)⟩

/-- C1: the spec says the regex-to-DFA pipeline agrees with the standard
regex semantics, in particular that the regex ab accepts exactly the
string ab.  The code disagrees: depth_first_recursive compares
concatenation-node values against treeConcatLiteral (mis-decoded bytes)
instead of concatOp, so every concatenation node falls through to
base_node_to_nfa and the pipeline rejects ab on input ab. -/
theorem regex_ab_rejects_ab :
    regexPipeline ['a', 'b'] ("ab".toList) ("ab".toList) 30 30 =
      .ok (some false) := by
  rfl

/-- C4: the claim says every unresolvable parse fails by raising
InvalidExpression and nothing else.  The code disagrees twice: the regex
string made of an opening parenthesis, a union bar and a closing
parenthesis makes the closing-parenthesis reduction pop an empty operand
stack, raising IndexError (uncaught by RegEx.__init__); and a closing
parenthesis with an empty operator stack is silently ignored, so the
regex a followed by an unmatched closing parenthesis parses without any
error at all. -/
theorem unbalanced_parse_raises_index_error :
    RegEx.init ['a', 'b'] ("(|)".toList) = .error .indexError ∧
      (RegEx.init ['a', 'b'] ("a)".toList)).map RegEx.invalid = .ok false :=
  ⟨rfl, rfl⟩

/-! ## pa3/dfa.py: reading a DFA description

A description file is modelled as the list of its lines (contents without
the trailing newline).  Python readline returns an empty string at end of
file; before end of file every line it returns still carries its newline,
so it is truthy even when its content is empty. -/

/-- Python str.strip() on a list of characters. -/
def pyStripList (l : List Char) : List Char :=
  ((l.dropWhile Char.isWhitespace).reverse.dropWhile Char.isWhitespace).reverse

/-- Python str.strip(). -/
def pyStrip (s : String) : String := String.mk (pyStripList s.toList)

/-- Helper of pySplit: split on whitespace runs, accumulating the current
token reversed. -/
def pySplitGo : List Char → List Char → List String
  | [], cur => if cur = [] then [] else [String.mk cur.reverse]
  | c :: cs, cur =>
      if Char.isWhitespace c then
        if cur = [] then pySplitGo cs []
        else String.mk cur.reverse :: pySplitGo cs []
      else pySplitGo cs (c :: cur)

/-- Python str.split() with no argument: whitespace-separated tokens,
leading and trailing separators ignored. -/
def pySplit (s : String) : List String := pySplitGo s.toList []

/-- Python str.isnumeric() as used on state counts and state names; the
decimal digits are the numerals a DFA description uses. -/
def pyIsNumeric (s : String) : Bool :=
  ¬ s.toList = [] && s.toList.all Char.isDigit

/-- Python int() on a string of decimal digits. -/
def strToNat (s : String) : Nat :=
  s.toList.foldl (fun n c => n * 10 + (c.toNat - 48)) 0

/-- character.replace with a quote and the empty string: drop every
apostrophe (character 39). -/
def stripQuotes (s : String) : String :=
  String.mk (s.toList.filter (fun c => ¬ c = Char.ofNat 39))

/-- Python file.readline() over the remaining lines: the next line if one
exists. -/
def rawReadline : List String → Option String × List String
  | [] => (none, [])
  | l :: rest => (some l, rest)

/-- The DFA class of pa3/dfa.py as filled in from a description file:
states kept as the strings read from the file, the alphabet as
one-character strings. -/
structure DFAFile where
  alphabet : List String
  number_of_states : Nat
  transition_function : PyDict String (PyDict String String)
  start_state : String
  accept_states : PyDict String Unit
  deriving DecidableEq

/-- DFA.transition on a file-read DFA: a double dict lookup; a missing
binding is a Python KeyError, modelled as none. -/
def DFAFile.transition (d : DFAFile) (state symbol : String) : Option String := do
  let row ← dget? d.transition_function state
  dget? row symbol

/-- DFA._validate_state: nonempty, numeric, and within 1..N. -/
def validate_state (N : Nat) (state : String) : Bool :=
  pyIsNumeric state && (1 ≤ strToNat state && strToNat state ≤ N)

/-- DFA._validate_transition: both states valid and the symbol in the
alphabet. -/
def validate_transition (N : Nat) (alphabet : List String)
    (state_i state_o char : String) : Bool :=
  (validate_state N state_i && validate_state N state_o) && char ∈ alphabet

/-- DFA._store_transition. -/
def store_transition (tf : PyDict String (PyDict String String))
    (state_from state_to transition_char : String) :
    PyDict String (PyDict String String) :=
  match dget? tf state_from with
  | none => dset tf state_from [(transition_char, state_to)]
  | some row => dset tf state_from (dset row transition_char state_to)

/-- DFA._validate_accept_states: validate each accept state in turn,
storing it; none on the first invalid one (the source returns False, which
_read_dfa_data_from_file turns into FileFormatError). -/
def validate_accept_states (N : Nat) :
    List String → PyDict String Unit → Option (PyDict String Unit)
  | [], acc => some acc
  | s :: rest, acc =>
      if validate_state N s then validate_accept_states N rest (dset acc s ())
      else none

/-- The transition-reading while-loop of _read_dfa_data_from_file: as long
as the current line splits into exactly three tokens, validate and store
the record and read the next line; the tokens that ended the loop are
returned for the start-state step.  At end of file readline yields the
empty string, whose split is empty, ending the loop. -/
def readTransLoop (N : Nat) (alphabet : List String) :
    List String → List String → PyDict String (PyDict String String) →
    Except PyErr (PyDict String (PyDict String String) × List String × List String)
  | [s, c, t], lines, tf =>
      let qc := stripQuotes c
      if validate_transition N alphabet s t qc = false then .error .formatError
      else
        let tf' := store_transition tf s t qc
        match lines with
        | [] => .ok (tf', [], [])
        | l :: rest => readTransLoop N alphabet (pySplit (pyStrip l)) rest tf'
  | cur, lines, tf => .ok (tf, cur, lines)

/-- DFA._read_dfa_data_from_file over the lines of the description.  A
non-numeric state count is a FileFormatError; an invalid transition record
is a FileFormatError; the start state is transition_data[0], which on a
file that ends before the start-state line is an IndexError on the empty
token list; an invalid start state, invalid accept states, or a further
line after the accept-state line (any further line: before end of file a
raw readline still holds its newline, hence is truthy even when blank) are
FileFormatErrors. -/
def read_dfa_data_from_file (lines : List String) : Except PyErr DFAFile :=
  let (l1, r1) := rawReadline lines
  let num_of_states := pyStrip (l1.getD "")
  if pyIsNumeric num_of_states = false then .error .formatError
  else
    let N := strToNat num_of_states
    let (l2, r2) := rawReadline r1
    let alphabet := (pyStrip (l2.getD "")).toList.map (fun c => String.mk [c])
    let (l3, r3) := rawReadline r2
    match readTransLoop N alphabet (pySplit (pyStrip (l3.getD ""))) r3 [] with
    | .error e => .error e
    | .ok (tf, transition_data, r4) =>
        match transition_data with
        | [] => .error .indexError
        | start :: _ =>
            if validate_state N start = false then .error .formatError
            else
              let (l5, r5) := rawReadline r4
              match validate_accept_states N (pySplit (pyStrip (l5.getD ""))) [] with
              | none => .error .formatError
              | some acc =>
                  let (l6, _) := rawReadline r5
                  if l6.isSome then .error .formatError
                  else .ok { alphabet := alphabet
                             number_of_states := N
                             transition_function := tf
                             start_state := start
                             accept_states := acc }

/-! ## Claim theorems about the DFA description reader (C3, C8) -/

/-- Every binding of a transition table maps a valid source state to a row
whose symbols are alphabet members and whose destinations are valid
states. -/
def ValidTF (N : Nat) (alpha : List String)
    (tf : PyDict String (PyDict String String)) : Prop :=
  ∀ s row, dget? tf s = some row →
    validate_state N s = true ∧
    ∀ p ∈ row, p.1 ∈ alpha ∧ validate_state N p.2 = true

theorem store_transition_valid (N : Nat) (alpha : List String)
    (tf : PyDict String (PyDict String String)) (s t qc : String)
    (hv : validate_transition N alpha s t qc = true)
    (htf : ValidTF N alpha tf) :
    ValidTF N alpha (store_transition tf s t qc) := by
  have hvs : validate_state N s = true := by
    simp only [validate_transition, Bool.and_eq_true] at hv
    exact hv.1.1
  have hvt : validate_state N t = true := by
    simp only [validate_transition, Bool.and_eq_true] at hv
    exact hv.1.2
  have hqa : qc ∈ alpha := by
    simp only [validate_transition, Bool.and_eq_true, decide_eq_true_eq] at hv
    exact hv.2
  intro s' row' h'
  unfold store_transition at h'
  cases hrow : dget? tf s with
  | none =>
      rw [hrow] at h'
      by_cases hs : s' = s
      · subst hs
        rw [dget?_dset_self] at h'
        cases h'
        refine ⟨hvs, ?_⟩
        intro p hp
        simp only [List.mem_singleton] at hp
        subst hp
        exact ⟨hqa, hvt⟩
      · rw [dget?_dset_ne _ _ _ _ hs] at h'
        exact htf s' row' h'
  | some row =>
      rw [hrow] at h'
      by_cases hs : s' = s
      · subst hs
        rw [dget?_dset_self] at h'
        cases h'
        refine ⟨hvs, ?_⟩
        intro p hp
        rcases mem_dset _ _ _ _ hp with hpe | hpm
        · subst hpe
          exact ⟨hqa, hvt⟩
        · exact (htf _ row hrow).2 p hpm
      · rw [dget?_dset_ne _ _ _ _ hs] at h'
        exact htf s' row' h'

theorem readTransLoop_valid (N : Nat) (alpha : List String) :
    ∀ (lines cur : List String) (tf tf' : PyDict String (PyDict String String))
      (td rest : List String),
      ValidTF N alpha tf →
      readTransLoop N alpha cur lines tf = .ok (tf', td, rest) →
      ValidTF N alpha tf' := by
  intro lines
  induction lines with
  | nil =>
      intro cur tf tf' td rest htf h
      rcases cur with _ | ⟨s, cur⟩
      · simp only [readTransLoop] at h; cases h; exact htf
      rcases cur with _ | ⟨c, cur⟩
      · simp only [readTransLoop] at h; cases h; exact htf
      rcases cur with _ | ⟨t, cur⟩
      · simp only [readTransLoop] at h; cases h; exact htf
      rcases cur with _ | ⟨u, us⟩
      · simp only [readTransLoop] at h
        by_cases hv : validate_transition N alpha s t (stripQuotes c) = false
        · rw [if_pos hv] at h
          exact absurd h (by simp)
        · rw [if_neg hv] at h
          cases h
          exact store_transition_valid N alpha tf s t (stripQuotes c)
            (by revert hv; cases validate_transition N alpha s t (stripQuotes c) <;> simp) htf
      · simp only [readTransLoop] at h; cases h; exact htf
  | cons l rest2 ih =>
      intro cur tf tf' td rest htf h
      rcases cur with _ | ⟨s, cur⟩
      · simp only [readTransLoop] at h; cases h; exact htf
      rcases cur with _ | ⟨c, cur⟩
      · simp only [readTransLoop] at h; cases h; exact htf
      rcases cur with _ | ⟨t, cur⟩
      · simp only [readTransLoop] at h; cases h; exact htf
      rcases cur with _ | ⟨u, us⟩
      · simp only [readTransLoop] at h
        by_cases hv : validate_transition N alpha s t (stripQuotes c) = false
        · rw [if_pos hv] at h
          exact absurd h (by simp)
        · rw [if_neg hv] at h
          exact ih _ _ _ _ _
            (store_transition_valid N alpha tf s t (stripQuotes c)
              (by revert hv; cases validate_transition N alpha s t (stripQuotes c) <;> simp) htf) h
      · simp only [readTransLoop] at h; cases h; exact htf

/-- C3 counterexample: the description with two states, alphabet a, no
transition records, start state 1 and no accept states is accepted by the
constructor, yet transition(1, a) is undefined (a KeyError in the source),
refuting the claim that acceptance guarantees a total transition
function. -/
theorem accepted_dfa_with_partial_transitions :
    (read_dfa_data_from_file ["2", "a", "1"]).map
        (fun d => (d.number_of_states, d.alphabet, d.transition "1" "a")) =
      .ok (2, ["a"], none) :=
  rfl

/-- C3 as amended: the constructor validates every transition record it
stores (source and destination inside 1..N, symbol in the alphabet), but
it never checks totality, so an accepted description can leave
transition(state, symbol) undefined. -/
theorem dfa_reader_validates_but_is_not_total :
    (∀ lines d, read_dfa_data_from_file lines = .ok d →
      ∀ s row, dget? d.transition_function s = some row →
        validate_state d.number_of_states s = true ∧
        ∀ p ∈ row, p.1 ∈ d.alphabet ∧ validate_state d.number_of_states p.2 = true) ∧
    (read_dfa_data_from_file ["2", "a", "1"]).map
        (fun d => (d.transition "1" "a").isNone) = .ok true := by
  constructor
  · intro lines d h
    unfold read_dfa_data_from_file at h
    rcases hp1 : rawReadline lines with ⟨l1, r1⟩
    rw [hp1] at h
    dsimp only at h
    rcases hp2 : rawReadline r1 with ⟨l2, r2⟩
    rw [hp2] at h
    dsimp only at h
    rcases hp3 : rawReadline r2 with ⟨l3, r3⟩
    rw [hp3] at h
    dsimp only at h
    by_cases h1 : pyIsNumeric (pyStrip (l1.getD "")) = false
    · rw [if_pos h1] at h
      exact absurd h (by simp)
    rw [if_neg h1] at h
    rcases hloop : readTransLoop (strToNat (pyStrip (l1.getD "")))
        ((pyStrip (l2.getD "")).toList.map (fun c => String.mk [c]))
        (pySplit (pyStrip (l3.getD ""))) r3 [] with e | ⟨tf, td, r4⟩
    · rw [hloop] at h
      exact absurd h (by simp)
    rw [hloop] at h
    rcases td with _ | ⟨start, tdrest⟩
    · exact absurd h (by simp)
    dsimp only at h
    by_cases h2 : validate_state (strToNat (pyStrip (l1.getD ""))) start = false
    · rw [if_pos h2] at h
      exact absurd h (by simp)
    rw [if_neg h2] at h
    rcases hp5 : rawReadline r4 with ⟨l5, r5⟩
    rw [hp5] at h
    dsimp only at h
    rcases hacc : validate_accept_states (strToNat (pyStrip (l1.getD "")))
        (pySplit (pyStrip (l5.getD ""))) [] with _ | acc
    · rw [hacc] at h
      exact absurd h (by simp)
    rw [hacc] at h
    rcases hp6 : rawReadline r5 with ⟨l6, r6⟩
    rw [hp6] at h
    dsimp only at h
    by_cases h3 : l6.isSome = true
    · rw [if_pos h3] at h
      exact absurd h (by simp)
    rw [if_neg h3] at h
    have hd := Except.ok.inj h
    subst hd
    dsimp only
    exact readTransLoop_valid _ _ _ _ _ _ _ _
      (fun s row hrow => by simp [dget?] at hrow) hloop
  · rfl

/-- The DFA record read from the witness description below. -/
def c3dfa : DFAFile :=
  { alphabet := ["a", "b"]
    number_of_states := 2
    transition_function := [("1", [("a", "2")])]
    start_state := "1"
    accept_states := [] }

/-- Witness for the amended C3: on the description with two states,
alphabet ab, the single record from 1 to 2 on a, start state 1 and no
accept states, the stored record is fully validated. -/
theorem dfa_reader_validates_witness :
    validate_state 2 "1" = true ∧ "a" ∈ c3dfa.alphabet ∧
      validate_state 2 "2" = true := by
  have h := dfa_reader_validates_but_is_not_total.1
    ["2", "ab", "1 'a' 2", "1", ""] c3dfa rfl "1" [("a", "2")] rfl
  exact ⟨h.1, (h.2 ("a", "2") (by simp)).1, (h.2 ("a", "2") (by simp)).2⟩

/-- C8: the claim says every malformed description fails with
FileFormatError and no other exception.  A description that ends before
the start-state line instead raises IndexError (transition_data[0] on an
empty token list); a non-numeric state count does fail with
FileFormatError as claimed. -/
theorem missing_start_line_raises_index_error :
    read_dfa_data_from_file ["2", "ab"] = .error .indexError ∧
      read_dfa_data_from_file ["2x", "ab", "1", ""] = .error .formatError :=
  ⟨rfl, rfl⟩

/-! ## pa4/lexer.py: TokenValue and the maximal-munch scanner -/

/-- The TokenValue class: a compiled DFA, a token-type label, and the
declaration-order priority (0 first). -/
structure TokenValue where
  dfa : DFA
  type : String
  order : Nat
  deriving DecidableEq

/-- The lexer exceptions (keyError models a Python KeyError escaping from
DFA.transition on a missing binding). -/
inductive LexErr where
  | eofError
  | invalidToken
  | keyError
  deriving DecidableEq, Repr

/-- The inner character loop of Lex._analyze_input for one DFA: a space
before any accept is skipped, a space after an accept ends the scan, a
transition into state 1 (the permanent reject state) ends the scan, and
entering an accept state at offset i records i+1 as the longest match. -/
def analyzeScanGo (d : DFA) : List Char → Nat → Nat → Bool → Nat → Option (Bool × Nat)
  | [], _, _, reached, longest => some (reached, longest)
  | c :: cs, i, curr, reached, longest =>
      if c = ' ' then
        if reached then some (reached, longest)
        else analyzeScanGo d cs (i + 1) curr reached longest
      else
        match d.transition curr c with
        | none => none
        | some next =>
            if next = 1 then some (reached, longest)
            else
              if next ∈ d.accept_states then analyzeScanGo d cs (i + 1) next true (i + 1)
              else analyzeScanGo d cs (i + 1) next reached longest

/-- One DFA scan of Lex._analyze_input, from the DFA start state. -/
def analyzeScan (d : DFA) (input : List Char) : Option (Bool × Nat) :=
  analyzeScanGo d input 0 d.start_state false 0

/-- The outer loop of Lex._analyze_input: accumulate the candidate token
values achieving the longest accepted length (a strictly longer match
resets the list, an equal one is appended). -/
def analyzeLoop (input : List Char) :
    List TokenValue → List TokenValue → Nat → Option (List TokenValue × Nat)
  | [], cands, fl => some (cands, fl)
  | tv :: rest, cands, fl =>
      match analyzeScan tv.dfa input with
      | none => none
      | some (true, l) =>
          if fl < l then analyzeLoop input rest [tv] l
          else if l = fl then analyzeLoop input rest (cands ++ [tv]) fl
          else analyzeLoop input rest cands fl
      | some (false, _) => analyzeLoop input rest cands fl

/-- The fold inside Lex._multiple_token_decider, with its hard-coded
initial lowest order of 10000000. -/
def multipleTokenDeciderGo : List TokenValue → Option TokenValue → Nat → Option TokenValue
  | [], tv, _ => tv
  | t :: ts, tv, lowest =>
      if t.order < lowest then multipleTokenDeciderGo ts (some t) t.order
      else multipleTokenDeciderGo ts tv lowest

/-- Lex._multiple_token_decider. -/
def multiple_token_decider (tokens : List TokenValue) : Option TokenValue :=
  multipleTokenDeciderGo tokens none 10000000

/-- Lex._analyze_input: run every DFA, then pick the single candidate, or
the decider result when there are several (or none, in which case the
decider returns none). -/
def analyze_input (dfas : List TokenValue) (input : List Char) :
    Option (Option TokenValue × List Char × Nat) :=
  match analyzeLoop input dfas [] 0 with
  | none => none
  | some (cands, fl) =>
      let result_token :=
        if cands.length = 1 then cands.head? else multiple_token_decider cands
      some (result_token, input.take fl, fl)

/-- Lex.next_token on the lexer state (the stored token values and the
remaining source text): empty remaining input raises EOFError; otherwise
analyze, consume the matched length, normalise a separator-only remainder
to empty, and either return (type, lexeme with separators stripped) or
raise InvalidToken when no token value matched. -/
def next_token (dfas : List TokenValue) (source : List Char) :
    Except LexErr (String × String) × List Char :=
  if source = [] then (.error .eofError, source)
  else
    match analyze_input dfas source with
    | none => (.error .keyError, source)
    | some (tok, matched, len) =>
        let src1 := source.drop len
        let check := src1.filter (fun c => ¬ c = ' ')
        let src2 := if check = [] then check else src1
        match tok with
        | some tv =>
            (.ok (tv.type, String.mk (matched.filter (fun c => ¬ c = ' '))), src2)
        | none => (.error .invalidToken, src2)

/-! ## Claim theorems about the lexer (C2, C9) -/

theorem analyzeScan_space : ∀ d : DFA, analyzeScan d [' '] = some (false, 0) := by
  intro d
  rfl

theorem analyzeLoop_space (dfas : List TokenValue) :
    ∀ cands fl, analyzeLoop [' '] dfas cands fl = some (cands, fl) := by
  induction dfas with
  | nil => intro cands fl; rfl
  | cons tv rest ih =>
      intro cands fl
      simp only [analyzeLoop, analyzeScan_space]
      exact ih cands fl

/-- C2: the claim says next_token signals end of input (EOFError) whenever
the remaining input is empty after trimming separator whitespace.  The
code only checks for the literally empty string: on a remaining input
consisting of one space, for any collection of token DFAs, no scan ever
reaches an accept state, so next_token raises InvalidToken instead (and
only then normalises the remainder to empty, so that the following call
raises EOFError). -/
theorem whitespace_only_input_raises_invalid_token :
    ∀ dfas : List TokenValue,
      next_token dfas [' '] = (.error .invalidToken, []) ∧
        next_token dfas [] = (.error .eofError, []) := by
  intro dfas
  constructor
  · unfold next_token analyze_input
    rw [analyzeLoop_space dfas [] 0]
    rfl
  · rfl

theorem analyzeLoop_no_accept (input : List Char) :
    ∀ (dfas : List TokenValue) (cands : List TokenValue) (fl : Nat),
      (∀ tv ∈ dfas, (analyzeScan tv.dfa input).map Prod.fst = some false) →
      analyzeLoop input dfas cands fl = some (cands, fl) := by
  intro dfas
  induction dfas with
  | nil => intro cands fl _; rfl
  | cons tv rest ih =>
      intro cands fl hscan
      have h0 := hscan tv (List.mem_cons_self _ _)
      rcases hsc : analyzeScan tv.dfa input with _ | ⟨r, l⟩
      · rw [hsc] at h0; simp at h0
      · rw [hsc] at h0
        have hr : r = false := by simpa using h0
        subst hr
        simp only [analyzeLoop, hsc]
        exact ih cands fl (fun u hu => hscan u (List.mem_cons_of_mem _ hu))

/-- C9: when the remaining input still holds a non-separator character and
no token-value DFA reaches an accept state on it (every scan completes
with no accept), next_token raises InvalidToken, consumes nothing (the
remaining input is returned unchanged, not even normalised, since a
non-separator survives the check), and an immediately repeated call
therefore raises InvalidToken again. -/
theorem no_match_raises_invalid_token_and_consumes_nothing
    (dfas : List TokenValue) (source : List Char)
    (hne : ∃ c ∈ source, ¬ c = ' ')
    (hscan : ∀ tv ∈ dfas, (analyzeScan tv.dfa source).map Prod.fst = some false) :
    next_token dfas source = (.error .invalidToken, source) ∧
      next_token dfas ((next_token dfas source).2) = (.error .invalidToken, source) := by
  have hsrc : ¬ source = [] := by
    rintro rfl
    simp at hne
  have hcheck : ¬ source.filter (fun c => ¬ c = ' ') = [] := by
    obtain ⟨c, hc, hcs⟩ := hne
    intro hfil
    have : c ∈ source.filter (fun c => ¬ c = ' ') := by
      rw [List.mem_filter]
      exact ⟨hc, by simpa using hcs⟩
    rw [hfil] at this
    simp at this
  have hmain : next_token dfas source = (.error .invalidToken, source) := by
    simp only [next_token, if_neg hsrc, analyze_input,
      analyzeLoop_no_accept source dfas [] 0 hscan]
    simp only [List.length_nil, List.drop_zero]
    rw [if_neg (by simp), if_neg hcheck]
    rfl
  exact ⟨hmain, by rw [hmain]; exact hmain⟩

/-! ## Claim theorems about the lexer tie-break (C7) -/

theorem analyzeLoop_fl_le (input : List Char) :
    ∀ (dfas cands : List TokenValue) (fl : Nat) (c : List TokenValue) (f : Nat),
      analyzeLoop input dfas cands fl = some (c, f) → fl ≤ f := by
  intro dfas
  induction dfas with
  | nil =>
      intro cands fl c f h
      simp only [analyzeLoop, Option.some.injEq, Prod.mk.injEq] at h
      omega
  | cons tv rest ih =>
      intro cands fl c f h
      rcases hsc : analyzeScan tv.dfa input with _ | ⟨r, l⟩
      · simp only [analyzeLoop, hsc] at h
        exact absurd h (by simp)
      · cases r
        · simp only [analyzeLoop, hsc] at h
          exact ih _ _ _ _ h
        · simp only [analyzeLoop, hsc] at h
          by_cases h1 : fl < l
          · rw [if_pos h1] at h
            have := ih _ _ _ _ h
            omega
          · rw [if_neg h1] at h
            by_cases h2 : l = fl
            · rw [if_pos h2] at h
              exact ih _ _ _ _ h
            · rw [if_neg h2] at h
              exact ih _ _ _ _ h

theorem analyzeLoop_max (input : List Char) :
    ∀ (dfas cands : List TokenValue) (fl : Nat) (c : List TokenValue) (f : Nat),
      analyzeLoop input dfas cands fl = some (c, f) →
      ∀ tv ∈ dfas, ∀ l, analyzeScan tv.dfa input = some (true, l) → l ≤ f := by
  intro dfas
  induction dfas with
  | nil => intro cands fl c f _ tv htv; cases htv
  | cons tv0 rest ih =>
      intro cands fl c f h tv htv l hscan
      rcases hsc : analyzeScan tv0.dfa input with _ | ⟨r, l0⟩
      · simp only [analyzeLoop, hsc] at h
        exact absurd h (by simp)
      · cases r
        · simp only [analyzeLoop, hsc] at h
          rcases List.mem_cons.mp htv with rfl | htv'
          · rw [hscan] at hsc
            exact absurd hsc.symm (by simp)
          · exact ih _ _ _ _ h tv htv' l hscan
        · simp only [analyzeLoop, hsc] at h
          rcases List.mem_cons.mp htv with rfl | htv'
          · rw [hscan] at hsc
            have hl : l = l0 := by
              have := hsc.symm
              simp only [Option.some.injEq, Prod.mk.injEq] at this
              exact this.2.symm
            subst hl
            by_cases h1 : fl < l
            · rw [if_pos h1] at h
              exact analyzeLoop_fl_le input rest [tv] l c f h
            · rw [if_neg h1] at h
              by_cases h2 : l = fl
              · rw [if_pos h2] at h
                have := analyzeLoop_fl_le input rest (cands ++ [tv]) fl c f h
                omega
              · rw [if_neg h2] at h
                have := analyzeLoop_fl_le input rest cands fl c f h
                omega
          · by_cases h1 : fl < l0
            · rw [if_pos h1] at h
              exact ih _ _ _ _ h tv htv' l hscan
            · rw [if_neg h1] at h
              by_cases h2 : l0 = fl
              · rw [if_pos h2] at h
                exact ih _ _ _ _ h tv htv' l hscan
              · rw [if_neg h2] at h
                exact ih _ _ _ _ h tv htv' l hscan

theorem analyzeLoop_preserve (input : List Char) :
    ∀ (dfas cands : List TokenValue) (fl : Nat) (c : List TokenValue) (f : Nat),
      analyzeLoop input dfas cands fl = some (c, f) → fl = f →
      ∀ tv ∈ cands, tv ∈ c := by
  intro dfas
  induction dfas with
  | nil =>
      intro cands fl c f h hf tv htv
      simp only [analyzeLoop, Option.some.injEq, Prod.mk.injEq] at h
      rw [← h.1]
      exact htv
  | cons tv0 rest ih =>
      intro cands fl c f h hf tv htv
      rcases hsc : analyzeScan tv0.dfa input with _ | ⟨r, l0⟩
      · simp only [analyzeLoop, hsc] at h
        exact absurd h (by simp)
      · cases r
        · simp only [analyzeLoop, hsc] at h
          exact ih _ _ _ _ h hf tv htv
        · simp only [analyzeLoop, hsc] at h
          by_cases h1 : fl < l0
          · rw [if_pos h1] at h
            have := analyzeLoop_fl_le input rest [tv0] l0 c f h
            omega
          · rw [if_neg h1] at h
            by_cases h2 : l0 = fl
            · rw [if_pos h2] at h
              exact ih _ _ _ _ h hf tv (List.mem_append_left _ htv)
            · rw [if_neg h2] at h
              exact ih _ _ _ _ h hf tv htv

theorem analyzeLoop_complete (input : List Char) :
    ∀ (dfas cands : List TokenValue) (fl : Nat) (c : List TokenValue) (f : Nat),
      analyzeLoop input dfas cands fl = some (c, f) →
      ∀ tv ∈ dfas, analyzeScan tv.dfa input = some (true, f) → tv ∈ c := by
  intro dfas
  induction dfas with
  | nil => intro cands fl c f _ tv htv; cases htv
  | cons tv0 rest ih =>
      intro cands fl c f h tv htv hscan
      rcases List.mem_cons.mp htv with rfl | htv'
      · rw [analyzeLoop] at h
        rw [hscan] at h
        simp only at h
        by_cases h1 : fl < f
        · rw [if_pos h1] at h
          exact analyzeLoop_preserve input rest [tv] f c f h rfl tv (by simp)
        · rw [if_neg h1] at h
          by_cases h2 : f = fl
          · rw [if_pos h2] at h
            subst h2
            exact analyzeLoop_preserve input rest (cands ++ [tv]) f c f h rfl tv
              (List.mem_append_right _ (by simp))
          · rw [if_neg h2] at h
            have := analyzeLoop_fl_le input rest cands fl c f h
            omega
      · rcases hsc : analyzeScan tv0.dfa input with _ | ⟨r, l0⟩
        · simp only [analyzeLoop, hsc] at h
          exact absurd h (by simp)
        · cases r
          · simp only [analyzeLoop, hsc] at h
            exact ih _ _ _ _ h tv htv' hscan
          · simp only [analyzeLoop, hsc] at h
            by_cases h1 : fl < l0
            · rw [if_pos h1] at h
              exact ih _ _ _ _ h tv htv' hscan
            · rw [if_neg h1] at h
              by_cases h2 : l0 = fl
              · rw [if_pos h2] at h
                exact ih _ _ _ _ h tv htv' hscan
              · rw [if_neg h2] at h
                exact ih _ _ _ _ h tv htv' hscan

theorem analyzeLoop_sound (input : List Char) :
    ∀ (dfas cands : List TokenValue) (fl : Nat) (c : List TokenValue) (f : Nat),
      analyzeLoop input dfas cands fl = some (c, f) →
      ∀ tv ∈ c, (tv ∈ cands ∧ fl = f) ∨
        (tv ∈ dfas ∧ analyzeScan tv.dfa input = some (true, f)) := by
  intro dfas
  induction dfas with
  | nil =>
      intro cands fl c f h tv htv
      simp only [analyzeLoop, Option.some.injEq, Prod.mk.injEq] at h
      exact Or.inl ⟨h.1 ▸ htv, h.2⟩
  | cons tv0 rest ih =>
      intro cands fl c f h tv htv
      rcases hsc : analyzeScan tv0.dfa input with _ | ⟨r, l0⟩
      · simp only [analyzeLoop, hsc] at h
        exact absurd h (by simp)
      · cases r
        · simp only [analyzeLoop, hsc] at h
          rcases ih _ _ _ _ h tv htv with hl | hr
          · exact Or.inl hl
          · exact Or.inr ⟨List.mem_cons_of_mem _ hr.1, hr.2⟩
        · simp only [analyzeLoop, hsc] at h
          by_cases h1 : fl < l0
          · rw [if_pos h1] at h
            rcases ih _ _ _ _ h tv htv with hl | hr
            · have htv0 : tv = tv0 := by simpa using hl.1
              subst htv0
              exact Or.inr ⟨List.mem_cons_self _ _, by rw [hsc, hl.2]⟩
            · exact Or.inr ⟨List.mem_cons_of_mem _ hr.1, hr.2⟩
          · rw [if_neg h1] at h
            by_cases h2 : l0 = fl
            · rw [if_pos h2] at h
              rcases ih _ _ _ _ h tv htv with hl | hr
              · rcases List.mem_append.mp hl.1 with hc | htv0
                · exact Or.inl ⟨hc, hl.2⟩
                · have htv0' : tv = tv0 := by simpa using htv0
                  subst htv0'
                  exact Or.inr ⟨List.mem_cons_self _ _, by rw [hsc, h2, hl.2]⟩
              · exact Or.inr ⟨List.mem_cons_of_mem _ hr.1, hr.2⟩
            · rw [if_neg h2] at h
              rcases ih _ _ _ _ h tv htv with hl | hr
              · exact Or.inl hl
              · exact Or.inr ⟨List.mem_cons_of_mem _ hr.1, hr.2⟩

theorem analyzeLoop_sublist (input : List Char) :
    ∀ (dfas cands : List TokenValue) (fl : Nat) (c : List TokenValue) (f : Nat),
      analyzeLoop input dfas cands fl = some (c, f) →
      List.Sublist c (cands ++ dfas) := by
  intro dfas
  induction dfas with
  | nil =>
      intro cands fl c f h
      simp only [analyzeLoop, Option.some.injEq, Prod.mk.injEq] at h
      rw [← h.1, List.append_nil]
  | cons tv0 rest ih =>
      intro cands fl c f h
      rcases hsc : analyzeScan tv0.dfa input with _ | ⟨r, l0⟩
      · simp only [analyzeLoop, hsc] at h
        exact absurd h (by simp)
      · cases r
        · simp only [analyzeLoop, hsc] at h
          exact (ih _ _ _ _ h).trans
            (List.Sublist.append_left (List.sublist_cons_self tv0 rest) cands)
        · simp only [analyzeLoop, hsc] at h
          by_cases h1 : fl < l0
          · rw [if_pos h1] at h
            refine (ih _ _ _ _ h).trans ?_
            have h3 : List.Sublist (tv0 :: rest) (cands ++ tv0 :: rest) :=
              List.sublist_append_right cands (tv0 :: rest)
            simp only [List.singleton_append]
            exact h3
          · rw [if_neg h1] at h
            by_cases h2 : l0 = fl
            · rw [if_pos h2] at h
              have := ih _ _ _ _ h
              simpa [List.append_assoc] using this
            · rw [if_neg h2] at h
              exact (ih _ _ _ _ h).trans
                (List.Sublist.append_left (List.sublist_cons_self tv0 rest) cands)

theorem analyzeLoop_scans_isSome (input : List Char) :
    ∀ (dfas cands : List TokenValue) (fl : Nat) (c : List TokenValue) (f : Nat),
      analyzeLoop input dfas cands fl = some (c, f) →
      ∀ tv ∈ dfas, (analyzeScan tv.dfa input).isSome := by
  intro dfas
  induction dfas with
  | nil => intro cands fl c f _ tv htv; cases htv
  | cons tv0 rest ih =>
      intro cands fl c f h tv htv
      rcases hsc : analyzeScan tv0.dfa input with _ | ⟨r, l0⟩
      · simp only [analyzeLoop, hsc] at h
        exact absurd h (by simp)
      · rcases List.mem_cons.mp htv with rfl | htv'
        · simp [hsc]
        · cases r
          · simp only [analyzeLoop, hsc] at h
            exact ih _ _ _ _ h tv htv'
          · simp only [analyzeLoop, hsc] at h
            by_cases h1 : fl < l0
            · rw [if_pos h1] at h
              exact ih _ _ _ _ h tv htv'
            · rw [if_neg h1] at h
              by_cases h2 : l0 = fl
              · rw [if_pos h2] at h
                exact ih _ _ _ _ h tv htv'
              · rw [if_neg h2] at h
                exact ih _ _ _ _ h tv htv'

theorem analyzeLoop_isSome (input : List Char) :
    ∀ (dfas cands : List TokenValue) (fl : Nat),
      (∀ tv ∈ dfas, (analyzeScan tv.dfa input).isSome) →
      (analyzeLoop input dfas cands fl).isSome := by
  intro dfas
  induction dfas with
  | nil => intro cands fl _; simp [analyzeLoop]
  | cons tv0 rest ih =>
      intro cands fl hall
      have h0 := hall tv0 (List.mem_cons_self _ _)
      rcases hsc : analyzeScan tv0.dfa input with _ | ⟨r, l0⟩
      · rw [hsc] at h0; simp at h0
      · have hrest : ∀ tv ∈ rest, (analyzeScan tv.dfa input).isSome :=
          fun u hu => hall u (List.mem_cons_of_mem _ hu)
        cases r
        · simp only [analyzeLoop, hsc]
          exact ih _ _ hrest
        · simp only [analyzeLoop, hsc]
          by_cases h1 : fl < l0
          · rw [if_pos h1]
            exact ih _ _ hrest
          · rw [if_neg h1]
            by_cases h2 : l0 = fl
            · rw [if_pos h2]
              exact ih _ _ hrest
            · rw [if_neg h2]
              exact ih _ _ hrest

theorem analyzeLoop_achieved (input : List Char) :
    ∀ (dfas cands : List TokenValue) (fl : Nat) (c : List TokenValue) (f : Nat),
      analyzeLoop input dfas cands fl = some (c, f) →
      f = fl ∨ ∃ tv ∈ dfas, analyzeScan tv.dfa input = some (true, f) := by
  intro dfas
  induction dfas with
  | nil =>
      intro cands fl c f h
      simp only [analyzeLoop, Option.some.injEq, Prod.mk.injEq] at h
      exact Or.inl h.2.symm
  | cons tv0 rest ih =>
      intro cands fl c f h
      rcases hsc : analyzeScan tv0.dfa input with _ | ⟨r, l0⟩
      · simp only [analyzeLoop, hsc] at h
        exact absurd h (by simp)
      · cases r
        · simp only [analyzeLoop, hsc] at h
          rcases ih _ _ _ _ h with hl | ⟨u, hu, hsu⟩
          · exact Or.inl hl
          · exact Or.inr ⟨u, List.mem_cons_of_mem _ hu, hsu⟩
        · simp only [analyzeLoop, hsc] at h
          by_cases h1 : fl < l0
          · rw [if_pos h1] at h
            rcases ih _ _ _ _ h with hl | ⟨u, hu, hsu⟩
            · exact Or.inr ⟨tv0, List.mem_cons_self _ _, by rw [hsc, hl]⟩
            · exact Or.inr ⟨u, List.mem_cons_of_mem _ hu, hsu⟩
          · rw [if_neg h1] at h
            by_cases h2 : l0 = fl
            · rw [if_pos h2] at h
              rcases ih _ _ _ _ h with hl | ⟨u, hu, hsu⟩
              · exact Or.inl hl
              · exact Or.inr ⟨u, List.mem_cons_of_mem _ hu, hsu⟩
            · rw [if_neg h2] at h
              rcases ih _ _ _ _ h with hl | ⟨u, hu, hsu⟩
              · exact Or.inl hl
              · exact Or.inr ⟨u, List.mem_cons_of_mem _ hu, hsu⟩

theorem deciderGo_none :
    ∀ (L : List TokenValue) (acc : Option TokenValue) (low : Nat),
      (∀ t ∈ L, ¬ t.order < low) → multipleTokenDeciderGo L acc low = acc := by
  intro L
  induction L with
  | nil => intro acc low _; rfl
  | cons t ts ih =>
      intro acc low hall
      have ht := hall t (List.mem_cons_self _ _)
      simp only [multipleTokenDeciderGo, if_neg ht]
      exact ih acc low (fun u hu => hall u (List.mem_cons_of_mem _ hu))

theorem deciderGo_min :
    ∀ (L : List TokenValue) (acc : Option TokenValue) (low : Nat),
      (∃ t ∈ L, t.order < low) →
      ∃ r, multipleTokenDeciderGo L acc low = some r ∧ r ∈ L ∧ r.order < low ∧
        ∀ u ∈ L, r.order ≤ u.order := by
  intro L
  induction L with
  | nil => intro acc low h; simp at h
  | cons t ts ih =>
      intro acc low hex
      by_cases hto : t.order < low
      · by_cases hex2 : ∃ u ∈ ts, u.order < t.order
        · obtain ⟨r, hgo, hrmem, hrlt, hrmin⟩ := ih (some t) t.order hex2
          refine ⟨r, ?_, List.mem_cons_of_mem _ hrmem, lt_trans hrlt hto, ?_⟩
          · simp only [multipleTokenDeciderGo, if_pos hto]
            exact hgo
          · intro u hu
            rcases List.mem_cons.mp hu with rfl | hu'
            · exact le_of_lt hrlt
            · exact hrmin u hu'
        · push_neg at hex2
          refine ⟨t, ?_, List.mem_cons_self _ _, hto, ?_⟩
          · simp only [multipleTokenDeciderGo, if_pos hto]
            exact deciderGo_none ts (some t) t.order (fun u hu => not_lt.mpr (hex2 u hu))
          · intro u hu
            rcases List.mem_cons.mp hu with rfl | hu'
            · exact le_refl _
            · exact hex2 u hu'
      · obtain ⟨t', ht'mem, ht'lt⟩ := hex
        have ht'ts : t' ∈ ts := by
          rcases List.mem_cons.mp ht'mem with rfl | h'
          · exact absurd ht'lt hto
          · exact h'
        obtain ⟨r, hgo, hrmem, hrlt, hrmin⟩ := ih acc low ⟨t', ht'ts, ht'lt⟩
        refine ⟨r, ?_, List.mem_cons_of_mem _ hrmem, hrlt, ?_⟩
        · simp only [multipleTokenDeciderGo, if_neg hto]
          exact hgo
        · intro u hu
          rcases List.mem_cons.mp hu with rfl | hu'
          · omega
          · exact hrmin u hu'

/-- A DFA over alphabet a accepting exactly the one-letter string a, in
the shape the NFA conversion produces (state 1 the reject state, start
state 2, accept state 3). -/
def c7dfa : DFA :=
  { alphabet := ['a']
    number_of_states := 3
    transition_function := [(2, [('a', 3)]), (3, [('a', 1)]), (1, [('a', 1)])]
    start_state := 2
    accept_states := ({3} : Finset Nat) }

/-- A token value whose declaration order equals the hard-coded sentinel
of _multiple_token_decider. -/
def c7tv1 : TokenValue := { dfa := c7dfa, type := "T1", order := 10000000 }

/-- A token value declared right after c7tv1. -/
def c7tv2 : TokenValue := { dfa := c7dfa, type := "T2", order := 10000001 }

/-- C7 counterexample: with two token values whose DFAs both accept the
same maximal-length prefix but whose declaration orders are at or above
the hard-coded sentinel 10000000 of _multiple_token_decider, next_token
raises InvalidToken instead of returning the earliest-declared type, so
the tie-break claim fails as stated (its universal quantification covers
specifications with ten million or more token types). -/
theorem sentinel_order_defeats_tie_break :
    next_token [c7tv1, c7tv2] ['a'] = (.error .invalidToken, []) :=
  rfl

/-- C7 as amended: whenever at least two token values tie at the maximal
matched length, their stored orders are pairwise distinct (as the
declaration orders of a token specification are), and some tie candidate
has order below the decider sentinel 10000000, next_token returns the
candidate with the least order, the one declared earliest, and the
outcome does not depend on the iteration order over the stored token
values: every permutation of the collection yields the same token. -/
theorem priority_tie_break_decides_by_order
    (dfas : List TokenValue) (input : List Char)
    (cands : List TokenValue) (fl : Nat)
    (h1 : analyzeLoop input dfas [] 0 = some (cands, fl))
    (h2 : 2 ≤ cands.length)
    (h3 : (dfas.map TokenValue.order).Nodup)
    (h4 : ∃ tv ∈ cands, tv.order < 10000000) :
    ∃ tv, multiple_token_decider cands = some tv ∧ tv ∈ cands ∧
      (∀ u ∈ cands, ¬ u = tv → tv.order < u.order) ∧
      (next_token dfas input).1 =
        .ok (tv.type, String.mk ((input.take fl).filter (fun c => ¬ c = ' '))) ∧
      (∀ dfas', dfas.Perm dfas' →
        (next_token dfas' input).1 =
          .ok (tv.type, String.mk ((input.take fl).filter (fun c => ¬ c = ' ')))) := by
  have hchar : ∀ tv, tv ∈ cands ↔
      (tv ∈ dfas ∧ analyzeScan tv.dfa input = some (true, fl)) := by
    intro tv
    constructor
    · intro htv
      rcases analyzeLoop_sound input dfas [] 0 cands fl h1 tv htv with hl | hr
      · exact absurd hl.1 (by simp)
      · exact hr
    · intro ⟨hmem, hscan⟩
      exact analyzeLoop_complete input dfas [] 0 cands fl h1 tv hmem hscan
  have hdfasnodup : dfas.Nodup := List.Nodup.of_map _ h3
  have hcnodup : cands.Nodup :=
    (analyzeLoop_sublist input dfas [] 0 cands fl h1).nodup
      (by simpa using hdfasnodup)
  obtain ⟨r, hgo, hrmem, hrlow, hrmin⟩ := deciderGo_min cands none 10000000 h4
  have hdec : multiple_token_decider cands = some r := hgo
  have hstrict : ∀ u ∈ cands, ¬ u = r → r.order < u.order := by
    intro u hu hne
    have hle := hrmin u hu
    rcases lt_or_eq_of_le hle with hlt | heq
    · exact hlt
    · exfalso
      have hu' := (hchar u).mp hu
      have hr' := (hchar r).mp hrmem
      exact hne (List.inj_on_of_nodup_map h3 hu'.1 hr'.1 heq.symm)
  have hinput : ¬ input = [] := by
    intro hnil
    subst hnil
    rcases cands with _ | ⟨t, _⟩
    · simp at h2
    · have := (hchar t).mp (List.mem_cons_self _ _)
      have hscan0 : analyzeScan t.dfa [] = some (false, 0) := rfl
      rw [hscan0] at this
      exact absurd this.2 (by simp)
  have hlen1 : ¬ cands.length = 1 := by omega
  have hnt : ∀ (ds : List TokenValue) (cs : List TokenValue),
      analyzeLoop input ds [] 0 = some (cs, fl) →
      multiple_token_decider cs = some r → ¬ cs.length = 1 →
      (next_token ds input).1 =
        .ok (r.type, String.mk ((input.take fl).filter (fun c => ¬ c = ' '))) := by
    intro ds cs hloop hdec' hlen'
    unfold next_token analyze_input
    rw [if_neg hinput, hloop]
    simp only [if_neg hlen', hdec']
  refine ⟨r, hdec, hrmem, hstrict, hnt dfas cands h1 hdec hlen1, ?_⟩
  intro dfas' hperm
  have hscans : ∀ tv ∈ dfas', (analyzeScan tv.dfa input).isSome := by
    intro tv htv
    exact analyzeLoop_scans_isSome input dfas [] 0 cands fl h1 tv (hperm.mem_iff.mpr htv)
  have hsome := analyzeLoop_isSome input dfas' [] 0 hscans
  rcases hout : analyzeLoop input dfas' [] 0 with _ | ⟨c', f'⟩
  · rw [hout] at hsome; simp at hsome
  obtain ⟨t0, ht0⟩ : ∃ t, t ∈ cands := by
    rcases cands with _ | ⟨t, _⟩
    · simp at h2
    · exact ⟨t, List.mem_cons_self _ _⟩
  have ht0' := (hchar t0).mp ht0
  have hf'fl : f' = fl := by
    have hle1 : f' ≤ fl := by
      rcases analyzeLoop_achieved input dfas' [] 0 c' f' hout with h0 | ⟨u, hu, hsu⟩
      · omega
      · exact analyzeLoop_max input dfas [] 0 cands fl h1 u (hperm.mem_iff.mpr hu) f' hsu
    have hle2 : fl ≤ f' :=
      analyzeLoop_max input dfas' [] 0 c' f' hout t0 (hperm.mem_iff.mp ht0'.1) fl ht0'.2
    omega
  subst hf'fl
  have hchar' : ∀ tv, tv ∈ c' ↔
      (tv ∈ dfas' ∧ analyzeScan tv.dfa input = some (true, f')) := by
    intro tv
    constructor
    · intro htv
      rcases analyzeLoop_sound input dfas' [] 0 c' f' hout tv htv with hl | hr
      · exact absurd hl.1 (by simp)
      · exact hr
    · intro ⟨hmem, hscan⟩
      exact analyzeLoop_complete input dfas' [] 0 c' f' hout tv hmem hscan
  have hcc' : ∀ tv, tv ∈ c' ↔ tv ∈ cands := by
    intro tv
    rw [hchar' tv, hchar tv, hperm.mem_iff]
  have hlen' : ¬ c'.length = 1 := by
    intro hone
    rcases c' with _ | ⟨x, _ | ⟨y, c''⟩⟩
    · simp at hone
    · obtain ⟨a, b, rest2, hc⟩ : ∃ a b rest2, cands = a :: b :: rest2 := by
        rcases cands with _ | ⟨a, _ | ⟨b, rest2⟩⟩
        · simp at h2
        · simp at h2
        · exact ⟨a, b, rest2, rfl⟩
      have hab : ¬ a = b := by
        rw [hc] at hcnodup
        intro hEq
        rw [hEq] at hcnodup
        simp at hcnodup
      have ha : a ∈ [x] := (hcc' a).mpr (by rw [hc]; simp)
      have hb : b ∈ [x] := (hcc' b).mpr (by rw [hc]; simp)
      simp only [List.mem_singleton] at ha hb
      exact hab (ha.trans hb.symm)
    · simp at hone
  have h4' : ∃ tv ∈ c', tv.order < 10000000 := ⟨r, (hcc' r).mpr hrmem, hrlow⟩
  obtain ⟨r', hgo', hr'mem, _, hr'min⟩ := deciderGo_min c' none 10000000 h4'
  have hrr' : r' = r := by
    have h1r : r'.order ≤ r.order := hr'min r ((hcc' r).mpr hrmem)
    have h2r : r.order ≤ r'.order := hrmin r' ((hcc' r').mp hr'mem)
    have horder : r'.order = r.order := by omega
    have hr'dfas := ((hchar r').mp ((hcc' r').mp hr'mem)).1
    have hrdfas := ((hchar r).mp hrmem).1
    exact List.inj_on_of_nodup_map h3 hr'dfas hrdfas horder
  rw [hrr'] at hgo'
  exact hnt dfas' c' hout hgo' hlen'

/-- A token value with declaration order 0 (first in the specification). -/
def c7tvA : TokenValue := { dfa := c7dfa, type := "T1", order := 0 }

/-- A token value with declaration order 1. -/
def c7tvB : TokenValue := { dfa := c7dfa, type := "T2", order := 1 }

/-- Witness for the amended C7: both token values accept exactly the input
a, and next_token resolves the tie to the earlier-declared type T1. -/
theorem priority_tie_break_decides_by_order_witness :
    (next_token [c7tvA, c7tvB] ['a']).1 = .ok ("T1", "a") := by
  obtain ⟨tv, hdec, _, _, hnt, _⟩ :=
    priority_tie_break_decides_by_order [c7tvA, c7tvB] ['a'] [c7tvA, c7tvB] 1
      rfl (by decide) (by decide) ⟨c7tvA, by decide, by decide⟩
  have hda : multiple_token_decider [c7tvA, c7tvB] = some c7tvA := rfl
  rw [hda] at hdec
  have htv : tv = c7tvA := (Option.some.inj hdec).symm
  rw [htv] at hnt
  exact hnt

/-! ## The subset-construction invariants (C5, C6) -/

theorem convProcessSymbols_spec (n : NFA) (clFuel : Nat) (S : Finset Nat) :
    ∀ (chars : List Char) (row : PyDict Char (Finset Nat))
      (adds : List (Finset Nat)) (fe : Bool),
      convProcessSymbols n clFuel S chars = some (row, adds, fe) →
      (row.map Prod.fst = chars) ∧
      (∀ p ∈ row, (p.2 = (∅ : Finset Nat) → fe = true) ∧
        (¬ p.2 = (∅ : Finset Nat) → p.2 ∈ adds)) ∧
      (∀ a ∈ adds, ¬ a = (∅ : Finset Nat)) ∧
      (fe = true → ∃ p ∈ row, p.2 = (∅ : Finset Nat)) := by
  intro chars
  induction chars with
  | nil =>
      intro row adds fe h
      simp only [convProcessSymbols, Option.some.injEq, Prod.mk.injEq] at h
      obtain ⟨hrow, hadds, hfe⟩ := h
      subst hrow hadds hfe
      refine ⟨rfl, by simp, by simp, by simp⟩
  | cons c cs ih =>
      intro row adds fe h
      simp only [convProcessSymbols] at h
      rcases hcl : n.get_epsilon_closure_for_states_set clFuel
          (n.get_transition_for_states_set S c) with _ | cl <;> rw [hcl] at h
      · simp at h
      try dsimp only at h
      rcases hrec : convProcessSymbols n clFuel S cs with _ | ⟨row', adds', fe'⟩ <;>
        rw [hrec] at h
      · simp at h
      simp only [Option.bind_eq_bind, Option.some_bind, Option.some.injEq,
        Prod.mk.injEq] at h
      obtain ⟨hrow, hadds, hfe⟩ := h
      obtain ⟨ihk, ihm, iha, ihf⟩ := ih row' adds' fe' hrec
      set dest := n.get_transition_for_states_set S c ∪ cl with hdest
      subst hrow hadds hfe
      refine ⟨by simp [ihk], ?_, ?_, ?_⟩
      · intro p hp
        rcases List.mem_cons.mp hp with rfl | hp'
        · constructor
          · intro hpe
            simp only [Bool.or_eq_true, decide_eq_true_eq]
            exact Or.inl hpe
          · intro hpne
            simp only [if_neg hpne]
            exact List.mem_cons_self _ _
        · refine ⟨fun hpe => by
            simp only [Bool.or_eq_true, decide_eq_true_eq]
            exact Or.inr ((ihm p hp').1 hpe), fun hpne => ?_⟩
          have := (ihm p hp').2 hpne
          by_cases hde : dest = (∅ : Finset Nat)
          · simpa [if_pos hde] using this
          · simp only [if_neg hde]
            exact List.mem_cons_of_mem _ this
      · intro a ha
        by_cases hde : dest = (∅ : Finset Nat)
        · rw [if_pos hde] at ha
          exact iha a ha
        · rw [if_neg hde] at ha
          rcases List.mem_cons.mp ha with rfl | ha'
          · exact hde
          · exact iha a ha'
      · intro hfe
        have hfe2 : decide (dest = (∅ : Finset Nat)) = true ∨ fe' = true := by
          simpa [Bool.or_eq_true] using hfe
        rcases hfe2 with hd | hf'
        · exact ⟨(c, dest), List.mem_cons_self _ _, by simpa using hd⟩
        · obtain ⟨p, hp, hpe⟩ := ihf hf'
          exact ⟨p, List.mem_cons_of_mem _ hp, hpe⟩

/-- The invariant of the while-loop of NFA._nfa_conversion, relative to
the NFA and the pre-registered start closure. -/
structure ConvInv (n : NFA) (startSet : Finset Nat) (st : ConvState) : Prop where
  hnext : st.next_state_id = 2 + st.states_handled.length
  hnum : st.number_of_states = 1 + st.states_handled.length
  hhandnodup : st.states_handled.Nodup
  hhandne : ∀ S ∈ st.states_handled, ¬ S = (∅ : Finset Nat)
  hqne : ∀ S ∈ st.queue, ¬ S = (∅ : Finset Nat)
  hmapempty : dget? st.mapping (∅ : Finset Nat) = some 1
  hmapdom : ∀ S i, dget? st.mapping S = some i →
    (S = (∅ : Finset Nat) ∧ i = 1) ∨ (S = startSet ∧ i = 2) ∨
    (S ∈ st.states_handled ∧ 2 ≤ i ∧ i ≤ 1 + st.states_handled.length)
  hmaphand : ∀ S ∈ st.states_handled, ∃ i, dget? st.mapping S = some i ∧
    2 ≤ i ∧ i ≤ 1 + st.states_handled.length
  hstarthand : ¬ st.states_handled = [] → startSet ∈ st.states_handled
  hinit : st.states_handled = [] → st = convInit startSet
  htfkeys : ∀ k, (dget? st.tf k).isSome ↔
    (2 ≤ k ∧ k < 2 + st.states_handled.length)
  htfrows : ∀ k row, dget? st.tf k = some row →
    (row.map Prod.fst = n.alphabet) ∧
    ∀ p ∈ row, (p.2 = (∅ : Finset Nat) → st.found_empty = true) ∧
      (¬ p.2 = (∅ : Finset Nat) → p.2 ∈ st.states_handled ∨ p.2 ∈ st.queue)
  hrev1 : dget? st.revMapping 1 = some (∅ : Finset Nat)
  hrev : ∀ k, 2 ≤ k → k ≤ 1 + st.states_handled.length →
    (dget? st.revMapping k).isSome

theorem convInit_inv (n : NFA) (startSet : Finset Nat)
    (hne : ¬ startSet = (∅ : Finset Nat)) :
    ConvInv n startSet (convInit startSet) := by
  have hmap : (convInit startSet).mapping =
      [((∅ : Finset Nat), 1), (startSet, 2)] := by
    simp [convInit, dset, hne]
  have hrevm : (convInit startSet).revMapping =
      [(1, (∅ : Finset Nat)), (2, startSet)] := by
    simp [convInit, dset]
  refine ⟨rfl, rfl, by simp [convInit], by simp [convInit], ?_, ?_, ?_, ?_, ?_, ?_, ?_, ?_, ?_, ?_⟩
  · intro S hS
    simp only [convInit, List.mem_singleton] at hS
    subst hS
    exact hne
  · rw [hmap]
    simp [dget?, hne]
  · intro S i h
    rw [hmap] at h
    by_cases hS : S = (∅ : Finset Nat)
    · subst hS
      simp only [dget?, if_pos rfl] at h
      exact Or.inl ⟨rfl, by simpa using h.symm⟩
    · simp only [dget?, if_neg hS] at h
      by_cases hS' : S = startSet
      · subst hS'
        simp only [if_pos rfl] at h
        exact Or.inr (Or.inl ⟨rfl, by simpa using h.symm⟩)
      · simp [if_neg hS'] at h
  · intro S hS
    simp only [convInit] at hS
    cases hS
  · intro h
    simp [convInit] at h
  · intro _
    rfl
  · intro k
    simp only [convInit]
    simp [dget?]
  · intro k row h
    simp only [convInit] at h
    simp [dget?] at h
  · rw [hrevm]
    simp [dget?]
  · intro k h2 h1
    simp only [convInit, List.length_nil] at h1
    omega

theorem convLoop_inv (n : NFA) (clFuel : Nat) (startSet : Finset Nat) :
    ∀ (fuel : Nat) (st stF : ConvState),
      ConvInv n startSet st →
      convLoop n clFuel fuel st = some stF →
      ConvInv n startSet stF ∧ stF.queue = [] := by
  intro fuel
  induction fuel with
  | zero =>
      intro st stF hinv h
      rcases hq : st.queue with _ | ⟨S, rest⟩ <;>
        (simp only [convLoop] at h; rw [hq] at h)
      · cases h
        exact ⟨hinv, hq⟩
      · simp at h
  | succ fuel ih =>
      intro st stF hinv h
      rcases hq : st.queue with _ | ⟨S, rest⟩ <;>
        (simp only [convLoop] at h; rw [hq] at h)
      · cases h
        exact ⟨hinv, hq⟩
      dsimp only at h
      by_cases hS : S ∈ st.states_handled
      · rw [if_pos hS] at h
        refine ih _ _ ?_ h
        refine ⟨hinv.hnext, hinv.hnum, hinv.hhandnodup, hinv.hhandne, ?_,
          hinv.hmapempty, hinv.hmapdom, hinv.hmaphand, hinv.hstarthand, ?_,
          hinv.htfkeys, ?_, hinv.hrev1, hinv.hrev⟩
        · intro T hT
          exact hinv.hqne T (by rw [hq]; exact List.mem_cons_of_mem _ hT)
        · intro hemp
          rw [hemp] at hS
          cases hS
        · intro k row hk
          obtain ⟨hkeys, hmem⟩ := hinv.htfrows k row hk
          refine ⟨hkeys, fun p hp => ⟨(hmem p hp).1, fun hpne => ?_⟩⟩
          rcases (hmem p hp).2 hpne with hh | hqm
          · exact Or.inl hh
          · rw [hq] at hqm
            rcases List.mem_cons.mp hqm with rfl | hr
            · exact Or.inl hS
            · exact Or.inr hr
      · rw [if_neg hS] at h
        rcases hps : convProcessSymbols n clFuel S n.alphabet with _ | ⟨row, adds, fe⟩ <;>
          rw [hps] at h
        · simp at h
        simp only [Option.bind_eq_bind, Option.some_bind] at h
        obtain ⟨hpskeys, hpsmem, hpsadds, _⟩ :=
          convProcessSymbols_spec n clFuel S n.alphabet row adds fe hps
        have hSne : ¬ S = (∅ : Finset Nat) :=
          hinv.hqne S (by rw [hq]; exact List.mem_cons_self _ _)
        rcases hm : dget? st.mapping S with _ | i
        · -- the set is new: it gets the fresh id next_state_id
          rw [hm] at h
          dsimp only at h
          refine ih _ _ ?_ h
          have hlen : (st.states_handled ++ [S]).length =
              st.states_handled.length + 1 := by simp
          refine ⟨?_, ?_, ?_, ?_, ?_, ?_, ?_, ?_, ?_, ?_, ?_, ?_, ?_, ?_⟩
          · dsimp only
            rw [hlen, hinv.hnext]
            omega
          · dsimp only
            rw [hlen, hinv.hnum]
            omega
          · dsimp only
            exact List.Nodup.append hinv.hhandnodup (List.nodup_singleton S)
              (by simpa using hS)
          · intro T hT
            dsimp only at hT
            rcases List.mem_append.mp hT with hTl | hTr
            · exact hinv.hhandne T hTl
            · rw [List.mem_singleton] at hTr
              subst hTr
              exact hSne
          · intro T hT
            dsimp only at hT
            rcases List.mem_append.mp hT with hTl | hTr
            · exact hinv.hqne T (by rw [hq]; exact List.mem_cons_of_mem _ hTl)
            · exact hpsadds T hTr
          · dsimp only
            rw [dget?_dset_ne _ _ _ _ (fun hc => hSne hc.symm)]
            exact hinv.hmapempty
          · intro T i' hT
            dsimp only at hT ⊢
            by_cases hTS : T = S
            · subst hTS
              rw [dget?_dset_self] at hT
              have hi' : i' = st.next_state_id := by
                simpa using hT.symm
              subst hi'
              refine Or.inr (Or.inr ⟨List.mem_append_right _ (by simp), ?_, ?_⟩)
              · rw [hinv.hnext]; omega
              · rw [hinv.hnext, hlen]; omega
            · rw [dget?_dset_ne _ _ _ _ hTS] at hT
              rcases hinv.hmapdom T i' hT with h1 | h2 | ⟨hmem, hlo, hhi⟩
              · exact Or.inl h1
              · exact Or.inr (Or.inl h2)
              · refine Or.inr (Or.inr ⟨List.mem_append_left _ hmem, hlo, ?_⟩)
                rw [hlen]
                omega
          · intro T hT
            dsimp only at hT ⊢
            rcases List.mem_append.mp hT with hTl | hTr
            · obtain ⟨i', hlook, hlo, hhi⟩ := hinv.hmaphand T hTl
              have hTS : ¬ T = S := fun hc => hS (hc ▸ hTl)
              refine ⟨i', ?_, hlo, by rw [hlen]; omega⟩
              rw [dget?_dset_ne _ _ _ _ hTS]
              exact hlook
            · rw [List.mem_singleton] at hTr
              subst hTr
              refine ⟨st.next_state_id, dget?_dset_self _ _ _, ?_, ?_⟩
              · rw [hinv.hnext]; omega
              · rw [hinv.hnext, hlen]; omega
          · intro _
            dsimp only
            by_cases hemp : st.states_handled = []
            · have hst := hinv.hinit hemp
              have hqi : st.queue = [startSet] := by rw [hst]; rfl
              rw [hq] at hqi
              have hSstart : S = startSet := (List.cons.inj hqi).1
              rw [← hSstart]
              exact List.mem_append_right _ (by simp)
            · exact List.mem_append_left _ (hinv.hstarthand hemp)
          · intro hemp
            dsimp only at hemp
            simp at hemp
          · intro k
            dsimp only
            by_cases hk : k = st.next_state_id
            · subst hk
              rw [dget?_dset_self]
              simp only [Option.isSome_some, true_iff]
              rw [hinv.hnext, hlen]
              omega
            · rw [dget?_dset_ne _ _ _ _ hk]
              rw [hinv.htfkeys k, hlen]
              rw [hinv.hnext] at hk
              omega
          · intro k row' hk
            dsimp only at hk ⊢
            by_cases hkn : k = st.next_state_id
            · subst hkn
              rw [dget?_dset_self] at hk
              have hrow' : row' = row := by simpa using hk.symm
              subst hrow'
              refine ⟨hpskeys, fun p hp => ⟨fun hpe => ?_, fun hpne => ?_⟩⟩
              · simp [(hpsmem p hp).1 hpe]
              · exact Or.inr (List.mem_append_right _ ((hpsmem p hp).2 hpne))
            · rw [dget?_dset_ne _ _ _ _ hkn] at hk
              obtain ⟨hkeys, hmem⟩ := hinv.htfrows k row' hk
              refine ⟨hkeys, fun p hp => ⟨fun hpe => ?_, fun hpne => ?_⟩⟩
              · simp [(hmem p hp).1 hpe]
              · rcases (hmem p hp).2 hpne with hh | hqm
                · exact Or.inl (List.mem_append_left _ hh)
                · rw [hq] at hqm
                  rcases List.mem_cons.mp hqm with rfl | hr
                  · exact Or.inl (List.mem_append_right _ (by simp))
                  · exact Or.inr (List.mem_append_left _ hr)
          · dsimp only
            have h1n : ¬ (1 : Nat) = st.next_state_id := by
              rw [hinv.hnext]; omega
            rw [dget?_dset_ne _ _ _ _ h1n]
            exact hinv.hrev1
          · intro k h2k hk
            dsimp only at hk ⊢
            rw [hlen] at hk
            by_cases hkn : k = st.next_state_id
            · subst hkn
              rw [dget?_dset_self]
              simp
            · rw [dget?_dset_ne _ _ _ _ hkn]
              rw [hinv.hnext] at hkn
              exact hinv.hrev k h2k (by omega)
        · -- the set is already mapped: only the pre-seeded start closure can be
          rw [hm] at h
          dsimp only at h
          rcases hinv.hmapdom S i hm with ⟨hSe, _⟩ | ⟨hSstart, hi2⟩ | ⟨hmem, _, _⟩
          · exact absurd hSe hSne
          · subst hSstart
            subst hi2
            have hemp : st.states_handled = [] := by
              by_contra hne
              exact hS (hinv.hstarthand hne)
            have hst := hinv.hinit hemp
            subst hst
            have hqi : (convInit S).queue = [S] := rfl
            rw [hq] at hqi
            have hrest : rest = [] := (List.cons.inj hqi.symm).2.symm
            subst hrest
            refine ih _ _ ?_ h
            refine ⟨?_, ?_, ?_, ?_, ?_, ?_, ?_, ?_, ?_, ?_, ?_, ?_, ?_, ?_⟩
            · rfl
            · rfl
            · simp [convInit]
            · intro T hT
              simp only [convInit, List.nil_append, List.mem_singleton] at hT
              subst hT
              exact hSne
            · intro T hT
              simp only [List.nil_append] at hT
              exact hpsadds T hT
            · exact hinv.hmapempty
            · intro T i' hT
              rcases hinv.hmapdom T i' hT with h1 | h2 | ⟨hmem', _, _⟩
              · exact Or.inl h1
              · refine Or.inr (Or.inr ⟨?_, ?_, ?_⟩)
                · rw [h2.1]
                  simp [convInit]
                · omega
                · rw [h2.2]
                  simp [convInit]
              · rw [hemp] at hmem'
                cases hmem'
            · intro T hT
              simp only [convInit, List.nil_append, List.mem_singleton] at hT
              subst hT
              refine ⟨2, hm, by omega, by simp [convInit]⟩
            · intro _
              simp [convInit]
            · intro hc
              simp [convInit] at hc
            · intro k
              dsimp only [convInit]
              by_cases hk : k = 2
              · subst hk
                rw [show dset ([] : PyDict Nat (PyDict Char (Finset Nat))) 2 row =
                    [(2, row)] from rfl]
                simp [dget?]
              · rw [show dset ([] : PyDict Nat (PyDict Char (Finset Nat))) 2 row =
                    [(2, row)] from rfl]
                simp [dget?, hk]
                omega
            · intro k row' hk
              dsimp only [convInit] at hk
              rw [show dset ([] : PyDict Nat (PyDict Char (Finset Nat))) 2 row =
                  [(2, row)] from rfl] at hk
              by_cases hk2 : k = 2
              · subst hk2
                have hrow2 : row' = row := by simpa [dget?] using hk.symm
                subst hrow2
                refine ⟨hpskeys, fun p hp => ⟨fun hpe => ?_, fun hpne => ?_⟩⟩
                · simp [(hpsmem p hp).1 hpe]
                · refine Or.inr ?_
                  simp only [convInit, List.nil_append]
                  exact (hpsmem p hp).2 hpne
              · simp [dget?, hk2] at hk
            · exact hinv.hrev1
            · intro k h2k hk
              simp only [convInit, List.nil_append, List.length_singleton] at hk
              have hk2 : k = 2 := by omega
              subst hk2
              have : dget? (convInit S).revMapping 2 = some S := by
                simp [convInit, dset, dget?]
              dsimp only [convInit] at this ⊢
              rw [this]
              rfl
          · exact absurd hmem hS

/-- The bound on conversion-table state ids: the number of handled sets
plus one (equal to number_of_states when the reject state was kept, one
more when it is about to be pruned). -/
def convBound (co : ConvOut) : Nat :=
  cond co.found_empty co.number_of_states (co.number_of_states + 1)

theorem nfa_conversion_spec (n : NFA) (clFuel loopFuel : Nat) (startSet : Finset Nat)
    (hne : ¬ startSet = (∅ : Finset Nat)) (co : ConvOut)
    (h : n.nfa_conversion clFuel loopFuel startSet = some co) :
    (∀ k, (dget? co.tf k).isSome ↔ (2 ≤ k ∧ k ≤ convBound co)) ∧
    (∀ k row, dget? co.tf k = some row →
      (row.map Prod.fst = n.alphabet) ∧
      ∀ p ∈ row, ∃ i, dget? co.mapping p.2 = some i ∧ 1 ≤ i ∧ i ≤ convBound co ∧
        (i = 1 → co.found_empty = true)) ∧
    (co.found_empty = true → dget? co.revMapping 1 = some (∅ : Finset Nat)) ∧
    (∀ k, 2 ≤ k → k ≤ convBound co → (dget? co.revMapping k).isSome) ∧
    (co.found_empty = true → 1 ≤ co.number_of_states) := by
  unfold NFA.nfa_conversion at h
  rcases hloop : convLoop n clFuel loopFuel (convInit startSet) with _ | stF <;>
    rw [hloop] at h
  · simp at h
  simp only [Option.bind_eq_bind, Option.some_bind] at h
  obtain ⟨hinvF, hqF⟩ := convLoop_inv n clFuel startSet loopFuel
    (convInit startSet) stF (convInit_inv n startSet hne) hloop
  have hnum := hinvF.hnum
  by_cases hfe : stF.found_empty = false
  · rw [if_pos hfe] at h
    have hco := Option.some.inj h
    subst hco
    refine ⟨?_, ?_, ?_, ?_, ?_⟩
    · intro k
      simp only [convBound, Bool.cond_false, Bool.cond_true]
      rw [hinvF.htfkeys k]
      omega
    · intro k row hk
      simp only [convBound, Bool.cond_false, Bool.cond_true]
      obtain ⟨hkeys, hmem⟩ := hinvF.htfrows k row hk
      refine ⟨hkeys, fun p hp => ?_⟩
      have hpne : ¬ p.2 = (∅ : Finset Nat) := by
        intro hpe
        have hcon := (hmem p hp).1 hpe
        rw [hfe] at hcon
        cases hcon
      have hph : p.2 ∈ stF.states_handled := by
        rcases (hmem p hp).2 hpne with hh | hqm
        · exact hh
        · rw [hqF] at hqm
          cases hqm
      obtain ⟨i, hlook, hlo, hhi⟩ := hinvF.hmaphand p.2 hph
      refine ⟨i, ?_, by omega, by omega, by omega⟩
      rw [dget?_ddel_ne _ _ _ hpne]
      exact hlook
    · intro hc
      simp at hc
    · intro k h2k hk
      simp only [convBound, Bool.cond_false, Bool.cond_true] at hk
      rw [dget?_ddel_ne _ _ _ (by omega : ¬ k = 1)]
      exact hinvF.hrev k h2k (by omega)
    · intro hc
      simp at hc
  · rw [if_neg hfe] at h
    have hco := Option.some.inj h
    subst hco
    refine ⟨?_, ?_, ?_, ?_, ?_⟩
    · intro k
      simp only [convBound, Bool.cond_false, Bool.cond_true]
      rw [hinvF.htfkeys k]
      omega
    · intro k row hk
      simp only [convBound, Bool.cond_false, Bool.cond_true]
      obtain ⟨hkeys, hmem⟩ := hinvF.htfrows k row hk
      refine ⟨hkeys, fun p hp => ?_⟩
      by_cases hpe : p.2 = (∅ : Finset Nat)
      · refine ⟨1, ?_, by omega, by omega, fun _ => by trivial⟩
        rw [hpe]
        exact hinvF.hmapempty
      · have hph : p.2 ∈ stF.states_handled := by
          rcases (hmem p hp).2 hpe with hh | hqm
          · exact hh
          · rw [hqF] at hqm
            cases hqm
        obtain ⟨i, hlook, hlo, hhi⟩ := hinvF.hmaphand p.2 hph
        exact ⟨i, hlook, by omega, by omega, by omega⟩
    · intro _
      exact hinvF.hrev1
    · intro k h2k hk
      simp only [convBound, Bool.cond_false, Bool.cond_true] at hk
      exact hinvF.hrev k h2k (by omega)
    · intro _
      dsimp only
      omega

theorem dget?_map_values {α β γ : Type} [DecidableEq α]
    (d : PyDict α β) (f : β → γ) (a : α) :
    dget? (d.map (fun p => (p.1, f p.2))) a = (dget? d a).map f := by
  induction d with
  | nil => simp [dget?]
  | cons p rest ih =>
      obtain ⟨k, v⟩ := p
      by_cases hk : a = k <;> simp [dget?, hk, ih]

theorem dget?_const_pairs (l : List Char) (v : Nat) (c : Char) (hc : c ∈ l) :
    dget? (l.map (fun c => (c, v))) c = some v := by
  induction l with
  | nil => cases hc
  | cons d ds ih =>
      by_cases hcd : c = d
      · simp [dget?, hcd]
      · rcases List.mem_cons.mp hc with h | h
        · exact absurd h hcd
        · simp only [List.map_cons, dget?, if_neg hcd]
          exact ih h

theorem convertRowM_spec (mapping : PyDict (Finset Nat) Nat)
    (row : PyDict Char (Finset Nat)) :
    ∀ (chars : List Char) (r : PyDict Char Nat),
      convertRowM mapping row chars = some r →
      ∀ c ∈ chars, ∃ fs i, dget? row c = some fs ∧ dget? mapping fs = some i ∧
        dget? r c = some i := by
  intro chars
  induction chars with
  | nil => intro r _ c hc; cases hc
  | cons c0 cs ih =>
      intro r h c hc
      simp only [convertRowM] at h
      rcases hfs : dget? row c0 with _ | fs <;> rw [hfs] at h
      · simp at h
      simp only [Option.bind_eq_bind, Option.some_bind] at h
      rcases hi : dget? mapping fs with _ | i <;> rw [hi] at h
      · simp at h
      simp only [Option.some_bind] at h
      rcases hrest : convertRowM mapping row cs with _ | r' <;> rw [hrest] at h
      · simp at h
      simp only [Option.some_bind, Option.some.injEq] at h
      subst h
      by_cases hcc : c = c0
      · subst hcc
        exact ⟨fs, i, hfs, hi, by simp [dget?]⟩
      · rcases List.mem_cons.mp hc with h' | h'
        · exact absurd h' hcc
        · obtain ⟨fs', i', h1, h2, h3⟩ := ih r' hrest c h'
          exact ⟨fs', i', h1, h2, by simp only [dget?, if_neg hcc]; exact h3⟩

theorem mapM_rows_dget (mapping : PyDict (Finset Nat) Nat) (alphabet : List Char) :
    ∀ (tf : PyDict Nat (PyDict Char (Finset Nat))) (rows : PyDict Nat (PyDict Char Nat)),
      tf.mapM (fun p => do
        let r ← convertRowM mapping p.2 alphabet
        pure (p.1, r)) = some rows →
      (∀ k, dget? rows k =
        (dget? tf k).bind (fun row => convertRowM mapping row alphabet)) ∧
      rows.map Prod.fst = tf.map Prod.fst := by
  intro tf
  induction tf with
  | nil =>
      intro rows h
      simp only [List.mapM_nil, pure, Option.some.injEq] at h
      subst h
      exact ⟨fun k => rfl, rfl⟩
  | cons p rest ih =>
      intro rows h
      obtain ⟨k0, row0⟩ := p
      rw [List.mapM_cons] at h
      rcases hconv : convertRowM mapping row0 alphabet with _ | r0 <;>
        rw [hconv] at h
      · simp at h
      rcases hrest : rest.mapM (fun p => do
          let r ← convertRowM mapping p.2 alphabet
          pure (p.1, r)) with _ | rows' <;> rw [hrest] at h
      · simp at h
      simp only [Option.bind_eq_bind, Option.some_bind, pure, Option.some.injEq] at h
      subst h
      obtain ⟨ihd, ihk⟩ := ih rows' hrest
      constructor
      · intro k
        by_cases hk : k = k0
        · subst hk
          simp [dget?, hconv]
        · simp only [dget?, if_neg hk]
          exact ihd k
      · simp [ihk]

theorem acceptFold_spec (n : NFA) (rev : PyDict Nat (Finset Nat)) :
    ∀ (keys : List Nat) (acc0 accF : Finset Nat),
      keys.foldlM (fun (acc : Finset Nat) k => do
        let S ← dget? rev k
        pure (if ∃ s ∈ S, s ∈ n.accept_states then insert k acc else acc)) acc0 =
        some accF →
      ∀ a ∈ accF, a ∈ acc0 ∨ (a ∈ keys ∧ ∃ Sa, dget? rev a = some Sa ∧
        ∃ s ∈ Sa, s ∈ n.accept_states) := by
  intro keys
  induction keys with
  | nil =>
      intro acc0 accF h a ha
      simp only [List.foldlM_nil, pure, Option.some.injEq] at h
      subst h
      exact Or.inl ha
  | cons k0 ks ih =>
      intro acc0 accF h a ha
      rw [List.foldlM_cons] at h
      rcases hS : dget? rev k0 with _ | S0 <;> rw [hS] at h
      · simp at h
      simp only [Option.bind_eq_bind, Option.some_bind, pure] at h
      rcases ih _ _ h a ha with hacc | ⟨hk, rest⟩
      · by_cases hcond : ∃ s ∈ S0, s ∈ n.accept_states
        · rw [if_pos hcond] at hacc
          rcases Finset.mem_insert.mp hacc with rfl | hin
          · exact Or.inr ⟨List.mem_cons_self _ _, S0, hS, hcond⟩
          · exact Or.inl hin
        · rw [if_neg hcond] at hacc
          exact Or.inl hacc
      · exact Or.inr ⟨List.mem_cons_of_mem _ hk, rest⟩

theorem get_epsilon_closure_loop_subset (n : NFA) :
    ∀ (fuel : Nat) (q : List Nat) (seen S : Finset Nat),
      n.get_epsilon_closure_loop fuel q seen = some S → seen ⊆ S := by
  intro fuel
  induction fuel with
  | zero =>
      intro q seen S h
      rcases q with _ | ⟨c, rest⟩
      · simp only [NFA.get_epsilon_closure_loop, Option.some.injEq] at h
        subst h
        exact Finset.Subset.refl _
      · simp [NFA.get_epsilon_closure_loop] at h
  | succ fuel ih =>
      intro q seen S h
      rcases q with _ | ⟨c, rest⟩
      · simp only [NFA.get_epsilon_closure_loop, Option.some.injEq] at h
        subst h
        exact Finset.Subset.refl _
      · simp only [NFA.get_epsilon_closure_loop] at h
        have hsub := ih _ _ _ h
        exact fun x hx => hsub (Finset.mem_insert_of_mem hx)

theorem get_epsilon_closure_start_mem (n : NFA) (fuel s : Nat) (S : Finset Nat)
    (h : n.get_epsilon_closure fuel s = some S) : s ∈ S := by
  unfold NFA.get_epsilon_closure at h
  rcases fuel with _ | fuel
  · simp [NFA.get_epsilon_closure_loop] at h
  · simp only [NFA.get_epsilon_closure_loop] at h
    have hsub := get_epsilon_closure_loop_subset n _ _ _ _ h
    exact hsub (Finset.mem_insert_self _ _)

theorem convertRowM_total (mapping : PyDict (Finset Nat) Nat)
    (row : PyDict Char (Finset Nat)) :
    ∀ (chars : List Char),
      (∀ c ∈ chars, ∃ fs i, dget? row c = some fs ∧ dget? mapping fs = some i) →
      ∃ r, convertRowM mapping row chars = some r := by
  intro chars
  induction chars with
  | nil => intro _; exact ⟨[], rfl⟩
  | cons c0 cs ih =>
      intro hall
      obtain ⟨fs, i, hfs, hi⟩ := hall c0 (List.mem_cons_self _ _)
      obtain ⟨r', hr'⟩ := ih (fun c hc => hall c (List.mem_cons_of_mem _ hc))
      refine ⟨(c0, i) :: r', ?_⟩
      simp only [convertRowM, hfs, hi, hr', Option.bind_eq_bind, Option.some_bind]


theorem acceptFold_mem_iff (n : NFA) (rev : PyDict Nat (Finset Nat)) :
    ∀ (keys : List Nat) (acc0 accF : Finset Nat),
      keys.foldlM (fun (acc : Finset Nat) k => do
        let S ← dget? rev k
        pure (if ∃ s ∈ S, s ∈ n.accept_states then insert k acc else acc)) acc0 =
        some accF →
      ∀ a, a ∈ accF ↔ (a ∈ acc0 ∨ (a ∈ keys ∧ ∃ Sa, dget? rev a = some Sa ∧
        ∃ s ∈ Sa, s ∈ n.accept_states)) := by
  intro keys
  induction keys with
  | nil =>
      intro acc0 accF h a
      simp only [List.foldlM_nil, pure, Option.some.injEq] at h
      subst h
      simp
  | cons k0 ks ih =>
      intro acc0 accF h a
      rw [List.foldlM_cons] at h
      rcases hS : dget? rev k0 with _ | S0 <;> rw [hS] at h
      · simp at h
      simp only [Option.bind_eq_bind, Option.some_bind, pure] at h
      rw [ih _ _ h a]
      by_cases hcond : ∃ s ∈ S0, s ∈ n.accept_states
      · rw [if_pos hcond]
        constructor
        · rintro (hins | ⟨hks, rest⟩)
          · rcases Finset.mem_insert.mp hins with rfl | hin
            · exact Or.inr ⟨List.mem_cons_self _ _, S0, hS, hcond⟩
            · exact Or.inl hin
          · exact Or.inr ⟨List.mem_cons_of_mem _ hks, rest⟩
        · rintro (hin | ⟨hmem, Sa, hSa, q, hqS, hqa⟩)
          · exact Or.inl (Finset.mem_insert_of_mem hin)
          · rcases List.mem_cons.mp hmem with rfl | hks
            · exact Or.inl (Finset.mem_insert_self _ _)
            · exact Or.inr ⟨hks, Sa, hSa, q, hqS, hqa⟩
      · rw [if_neg hcond]
        constructor
        · rintro (hin | ⟨hks, rest⟩)
          · exact Or.inl hin
          · exact Or.inr ⟨List.mem_cons_of_mem _ hks, rest⟩
        · rintro (hin | ⟨hmem, Sa, hSa, q, hqS, hqa⟩)
          · exact Or.inl hin
          · rcases List.mem_cons.mp hmem with rfl | hks
            · rw [hS] at hSa
              have hSe : S0 = Sa := Option.some.inj hSa
              subst hSe
              exact absurd ⟨q, hqS, hqa⟩ hcond
            · exact Or.inr ⟨hks, Sa, hSa, q, hqS, hqa⟩

theorem convertRowM_keys (mapping : PyDict (Finset Nat) Nat)
    (row : PyDict Char (Finset Nat)) :
    ∀ (chars : List Char) (r : PyDict Char Nat),
      convertRowM mapping row chars = some r → r.map Prod.fst = chars := by
  intro chars
  induction chars with
  | nil =>
      intro r h
      simp only [convertRowM, Option.some.injEq] at h
      subst h
      rfl
  | cons c0 cs ih =>
      intro r h
      simp only [convertRowM] at h
      rcases hfs : dget? row c0 with _ | fs <;> rw [hfs] at h
      · simp at h
      simp only [Option.bind_eq_bind, Option.some_bind] at h
      rcases hi : dget? mapping fs with _ | i <;> rw [hi] at h
      · simp at h
      simp only [Option.some_bind] at h
      rcases hrest : convertRowM mapping row cs with _ | r2 <;> rw [hrest] at h
      · simp at h
      simp only [Option.some_bind, Option.some.injEq] at h
      subst h
      simp only [List.map_cons]
      rw [ih r2 hrest]

theorem dget?_append_some {α β : Type} [DecidableEq α]
    (d₁ d₂ : PyDict α β) (a : α) (b : β) (h : dget? d₁ a = some b) :
    dget? (d₁ ++ d₂) a = some b := by
  rw [dget?_append, h]

theorem dget?_append_none {α β : Type} [DecidableEq α]
    (d₁ d₂ : PyDict α β) (a : α) (h : dget? d₁ a = none) :
    dget? (d₁ ++ d₂) a = dget? d₂ a := by
  rw [dget?_append, h]

/-- Full characterisation of NFA.to_DFA (exposed with its found_empty
flag): contiguous state ids, totality over the alphabet, the reject row of
state 1 when found_empty holds, the key/value down-shift when it does not,
and non-acceptance of the reject state. -/
theorem toDFAFull_spec
    (n : NFA) (clFuel loopFuel : Nat) (d : DFA) (fe : Bool)
    (h : n.to_DFA_full clFuel loopFuel = some (d, fe)) :
    (∀ s, (dget? d.transition_function s).isSome ↔ (1 ≤ s ∧ s ≤ d.number_of_states)) ∧
    (∀ s c, 1 ≤ s → s ≤ d.number_of_states → c ∈ n.alphabet →
      ∃ t, d.transition s c = some t ∧ 1 ≤ t ∧ t ≤ d.number_of_states) ∧
    (fe = true →
      dget? d.transition_function 1 = some (n.alphabet.map (fun c => (c, 1)))) ∧
    (fe = false → ∃ (S0 : Finset Nat) (co : ConvOut),
      n.get_epsilon_closure clFuel n.start_state = some S0 ∧
      n.nfa_conversion clFuel loopFuel S0 = some co ∧
      co.found_empty = false ∧
      d.number_of_states = co.number_of_states ∧
      (∀ s, (dget? d.transition_function s).isSome ↔
        (1 ≤ s ∧ (dget? co.tf (s + 1)).isSome)) ∧
      (∀ s, s ∈ d.accept_states ↔ (1 ≤ s ∧ s ≤ d.number_of_states ∧
        ∃ A, dget? co.revMapping (s + 1) = some A ∧ ∃ q ∈ A, q ∈ n.accept_states)) ∧
      (∀ s c t, d.transition s c = some t →
        ∃ row fs, dget? co.tf (s + 1) = some row ∧ dget? row c = some fs ∧
          dget? co.mapping fs = some (t + 1))) ∧
    (fe = true → 1 ∉ d.accept_states) := by
  unfold NFA.to_DFA_full at h
  rcases hsc : n.get_epsilon_closure clFuel n.start_state with _ | startSet <;>
    rw [hsc] at h
  · simp at h
  simp only [Option.bind_eq_bind, Option.some_bind] at h
  rcases hconv : n.nfa_conversion clFuel loopFuel startSet with _ | co <;>
    rw [hconv] at h
  · simp at h
  simp only [Option.some_bind] at h
  rcases hfin : n.finalize_dfa co with _ | d0 <;> rw [hfin] at h
  · simp at h
  simp only [Option.some_bind, Option.some.injEq, Prod.mk.injEq] at h
  obtain ⟨hd0, hfe0⟩ := h
  subst hd0
  subst hfe0
  have hmem := get_epsilon_closure_start_mem n clFuel n.start_state startSet hsc
  have hne : ¬ startSet = (∅ : Finset Nat) := by
    intro he
    rw [he] at hmem
    simp at hmem
  obtain ⟨spec1, spec2, spec3, _, spec5⟩ :=
    nfa_conversion_spec n clFuel loopFuel startSet hne co hconv
  unfold NFA.finalize_dfa at hfin
  try dsimp only at hfin
  obtain ⟨accept, hacc, hfin⟩ := Option.bind_eq_some.mp hfin
  obtain ⟨rows, hrows, hfin⟩ := Option.bind_eq_some.mp hfin
  try dsimp only at hfin
  obtain ⟨hrowd, hrowk⟩ := mapM_rows_dget co.mapping n.alphabet co.tf rows hrows
  have hrowsS : ∀ s, 2 ≤ s → s ≤ convBound co →
      ∃ r, dget? rows s = some r ∧ ∀ c ∈ n.alphabet,
        ∃ i, dget? r c = some i ∧ 1 ≤ i ∧ i ≤ convBound co ∧
          (i = 1 → co.found_empty = true) := by
    intro s h2 hB
    have hks : (dget? co.tf s).isSome := (spec1 s).mpr ⟨h2, hB⟩
    obtain ⟨row, hrow⟩ := Option.isSome_iff_exists.mp hks
    obtain ⟨hkeys, hmemrow⟩ := spec2 s row hrow
    have htotal : ∀ c ∈ n.alphabet, ∃ fs i, dget? row c = some fs ∧
        dget? co.mapping fs = some i := by
      intro c hc
      have hsome : (dget? row c).isSome :=
        dget?_isSome_of_mem_keys row c (by rw [hkeys]; exact hc)
      obtain ⟨fs, hfs⟩ := Option.isSome_iff_exists.mp hsome
      obtain ⟨i, hi, _, _, _⟩ := hmemrow (c, fs) (dget?_mem row c fs hfs)
      exact ⟨fs, i, hfs, hi⟩
    obtain ⟨r, hr⟩ := convertRowM_total co.mapping row n.alphabet htotal
    refine ⟨r, ?_, ?_⟩
    · rw [hrowd s, hrow]
      exact hr
    · intro c hc
      obtain ⟨fs, i, hfs, hi, hri⟩ :=
        convertRowM_spec co.mapping row n.alphabet r hr c hc
      obtain ⟨i', hi', hlo', hhi', hone'⟩ := hmemrow (c, fs) (dget?_mem row c fs hfs)
      have hii : i = i' := by
        rw [hi] at hi'
        exact (Option.some.inj hi'.symm).symm
      subst hii
      exact ⟨i, hri, hlo', hhi', hone'⟩
  have hrowsNone : ∀ s, ¬ (2 ≤ s ∧ s ≤ convBound co) → dget? rows s = none := by
    intro s hs
    rw [hrowd s]
    rcases hx : dget? co.tf s with _ | row
    · rfl
    · exact absurd ((spec1 s).mp (by simp [hx])) hs
  have hrows1 : dget? rows 1 = none := hrowsNone 1 (by omega)
  have hentries2 : ∀ p ∈ rows, 2 ≤ p.1 := by
    intro p hp
    have hk : p.1 ∈ rows.map Prod.fst := List.mem_map.mpr ⟨p, hp, rfl⟩
    rw [hrowk] at hk
    have := (spec1 p.1).mp (dget?_isSome_of_mem_keys co.tf p.1 hk)
    omega
  by_cases hfeb : co.found_empty = true
  · simp only [hfeb, if_true] at hfin
    have htf1 : dget? (rows ++ [(1, n.alphabet.map (fun c => (c, 1)))]) 1 =
        some (n.alphabet.map (fun c => (c, 1))) := by
      rw [dget?_append_none _ _ _ hrows1]
      simp [dget?]
    have hcond : (dget? (rows ++ [(1, n.alphabet.map (fun c => (c, 1)))]) 1).isSome
        = true := by
      rw [htf1]
      rfl
    rw [if_pos hcond] at hfin
    dsimp only at hfin
    have hd := Option.some.inj hfin
    subst hd
    have hnum1 : 1 ≤ co.number_of_states := spec5 hfeb
    have hBnum : convBound co = co.number_of_states := by
      simp [convBound, hfeb]
    refine ⟨?_, ?_, fun _ => htf1,
      fun hcon => by rw [hfeb] at hcon; exact absurd hcon (by decide), ?_⟩
    · intro s
      dsimp only
      by_cases hs : 2 ≤ s ∧ s ≤ convBound co
      · obtain ⟨r, hr, _⟩ := hrowsS s hs.1 hs.2
        rw [dget?_append_some _ _ _ _ hr]
        simp only [Option.isSome_some, true_iff]
        rw [hBnum] at hs
        omega
      · rw [dget?_append_none _ _ _ (hrowsNone s hs)]
        by_cases hs1 : s = 1
        · subst hs1
          simp [dget?]
          omega
        · simp only [dget?, if_neg hs1, Option.isSome_none, Bool.false_eq_true,
            false_iff]
          rw [hBnum] at hs
          omega
    · intro s c h1 hsn hc
      dsimp only at hsn ⊢
      by_cases hs1 : s = 1
      · subst hs1
        refine ⟨1, ?_, by omega, by omega⟩
        unfold DFA.transition
        dsimp only
        rw [htf1]
        simp only [Option.bind_eq_bind, Option.some_bind]
        exact dget?_const_pairs n.alphabet 1 c hc
      · have hs2 : 2 ≤ s := by omega
        obtain ⟨r, hr, hrc⟩ := hrowsS s hs2 (by rw [hBnum]; omega)
        obtain ⟨i, hric, hlo, hhi, _⟩ := hrc c hc
        refine ⟨i, ?_, hlo, by rw [hBnum] at hhi; omega⟩
        unfold DFA.transition
        dsimp only
        rw [dget?_append_some _ _ _ _ hr]
        simp only [Option.bind_eq_bind, Option.some_bind]
        exact hric
    · intro _ h1
      dsimp only at h1
      rcases acceptFold_spec n co.revMapping _ _ _ hacc 1 h1 with
        h0 | ⟨_, Sa, hSa, s, hsS, _⟩
      · exact absurd h0 (by simp)
      · rw [spec3 hfeb] at hSa
        have hSe : Sa = (∅ : Finset Nat) := (Option.some.inj hSa).symm
        subst hSe
        exact absurd hsS (by simp)
  · have hfef : co.found_empty = false := by
      revert hfeb
      cases co.found_empty <;> simp
    simp only [hfef, Bool.false_eq_true, if_false, List.append_nil] at hfin
    have hcond : ¬ ((dget? rows 1).isSome = true) := by
      rw [hrows1]
      simp
    rw [if_neg hcond] at hfin
    dsimp only at hfin
    have hd := Option.some.inj hfin
    subst hd
    have hBnum : convBound co = co.number_of_states + 1 := by
      simp [convBound, hfef]
    have hshift : ∀ s, dget? (generate_shifted_keys_dict rows) s =
        if 1 ≤ s then (dget? rows (s + 1)).map generate_shifted_transition_value
        else none := by
      intro s
      unfold generate_shifted_keys_dict
      exact dget?_map_shift rows generate_shifted_transition_value s hentries2
    refine ⟨?_, ?_,
      fun hcon => by rw [hfef] at hcon; exact absurd hcon (by decide), ?_,
      fun hcon => by rw [hfef] at hcon; exact absurd hcon (by decide)⟩
    · intro s
      dsimp only
      rw [hshift s]
      by_cases h1s : 1 ≤ s
      · rw [if_pos h1s]
        by_cases hs : 2 ≤ s + 1 ∧ s + 1 ≤ convBound co
        · obtain ⟨r, hr, _⟩ := hrowsS (s + 1) hs.1 hs.2
          rw [hr]
          simp only [Option.map_some', Option.isSome_some, true_iff]
          rw [hBnum] at hs
          omega
        · rw [hrowsNone (s + 1) hs]
          simp only [Option.map_none', Option.isSome_none, Bool.false_eq_true,
            false_iff]
          rw [hBnum] at hs
          omega
      · rw [if_neg h1s]
        simp only [Option.isSome_none, Bool.false_eq_true, false_iff]
        omega
    · intro s c h1 hsn hc
      dsimp only at hsn ⊢
      obtain ⟨r, hr, hrc⟩ := hrowsS (s + 1) (by omega) (by rw [hBnum]; omega)
      obtain ⟨i, hric, hlo, hhi, hone⟩ := hrc c hc
      have hi2 : 2 ≤ i := by
        rcases Nat.lt_or_ge i 2 with hlt | hge
        · have hi1 : i = 1 := by omega
          have := hone hi1
          rw [hfef] at this
          exact absurd this (by decide)
        · exact hge
      refine ⟨i - 1, ?_, by omega, ?_⟩
      · unfold DFA.transition
        dsimp only
        rw [hshift s, if_pos h1, hr]
        simp only [Option.map_some', Option.bind_eq_bind, Option.some_bind]
        unfold generate_shifted_transition_value
        exact (dget?_map_values r (fun v => v - 1) c).trans (by rw [hric]; rfl)
      · rw [hBnum] at hhi
        omega
    · intro _
      refine ⟨startSet, co, rfl, hconv, hfef, rfl, ?_, ?_, ?_⟩
      · intro s
        dsimp only
        rw [hshift s]
        by_cases h1s : 1 ≤ s
        · rw [if_pos h1s]
          constructor
          · intro hsome
            rcases hx : dget? rows (s + 1) with _ | r
            · rw [hx] at hsome
              simp at hsome
            · have hb := hrowd (s + 1)
              rw [hx] at hb
              rcases hy : dget? co.tf (s + 1) with _ | row0
              · rw [hy] at hb
                simp at hb
              · exact ⟨h1s, rfl⟩
          · rintro ⟨-, hsome⟩
            obtain ⟨h2b, hub⟩ := (spec1 (s + 1)).mp hsome
            obtain ⟨r, hr, -⟩ := hrowsS (s + 1) h2b hub
            rw [hr]
            rfl
        · rw [if_neg h1s]
          simp only [Option.isSome_none, Bool.false_eq_true, false_iff]
          exact fun hcon => h1s hcon.1
      · intro s
        dsimp only
        simp only [hfef, Bool.false_eq_true, if_false, List.append_nil] at hacc
        have hchar := acceptFold_mem_iff n co.revMapping _ _ _ hacc
        constructor
        · intro hs
          obtain ⟨a, haF, has⟩ := Finset.mem_image.mp hs
          have has' : a - 1 = s := has
          rcases (hchar a).mp haF with h0 | ⟨hkeys, Sa, hSa, q, hqS, hqa⟩
          · exact absurd h0 (Finset.not_mem_empty a)
          · obtain ⟨h2a, hua⟩ := (spec1 a).mp (dget?_isSome_of_mem_keys co.tf a hkeys)
            rw [hBnum] at hua
            have ha2 : a = s + 1 := by omega
            subst ha2
            exact ⟨by omega, by omega, Sa, hSa, q, hqS, hqa⟩
        · rintro ⟨h1s, hsn, A, hA, q, hqA, hqa⟩
          have hkeymem : (s + 1) ∈ co.tf.map Prod.fst := by
            rw [← dget?_isSome_iff_mem_keys]
            refine (spec1 (s + 1)).mpr ?_
            rw [hBnum]
            omega
          have hmemF : (s + 1) ∈ accept :=
            (hchar (s + 1)).mpr (Or.inr ⟨hkeymem, A, hA, q, hqA, hqa⟩)
          exact Finset.mem_image.mpr ⟨s + 1, hmemF, rfl⟩
      · intro s c t ht
        unfold DFA.transition at ht
        dsimp only at ht
        rw [hshift s] at ht
        by_cases h1s : 1 ≤ s
        · rw [if_pos h1s] at ht
          rcases hx : dget? rows (s + 1) with _ | r <;> rw [hx] at ht
          · simp at ht
          simp only [Option.map_some', Option.bind_eq_bind, Option.some_bind] at ht
          have hsome : (dget? co.tf (s + 1)).isSome := by
            have hb := hrowd (s + 1)
            rw [hx] at hb
            rcases hy : dget? co.tf (s + 1) with _ | row0
            · rw [hy] at hb
              simp at hb
            · simp [hy]
          obtain ⟨h2b, hub⟩ := (spec1 (s + 1)).mp hsome
          obtain ⟨row0, hrow0⟩ := Option.isSome_iff_exists.mp hsome
          have hconv' : convertRowM co.mapping row0 n.alphabet = some r := by
            have hb := hrowd (s + 1)
            rw [hx, hrow0] at hb
            exact hb.symm
          have hrc : (dget? r c).map (fun v => v - 1) = some t := by
            have hmv := dget?_map_values r (fun v => v - 1) c
            rw [← hmv]
            exact ht
          rcases hy : dget? r c with _ | i
          · rw [hy] at hrc
            simp at hrc
          rw [hy] at hrc
          simp only [Option.map_some', Option.some.injEq] at hrc
          have hcalpha : c ∈ n.alphabet := by
            have hck : c ∈ r.map Prod.fst := by
              rw [← dget?_isSome_iff_mem_keys]
              rw [hy]
              rfl
            rw [convertRowM_keys co.mapping row0 n.alphabet r hconv'] at hck
            exact hck
          obtain ⟨fs, i2, hfs, hi2, hri2⟩ :=
            convertRowM_spec co.mapping row0 n.alphabet r hconv' c hcalpha
          rw [hy] at hri2
          have hie : i = i2 := Option.some.inj hri2
          obtain ⟨r2, hr2, hrc2⟩ := hrowsS (s + 1) h2b hub
          rw [hx] at hr2
          have hrr2 : r2 = r := (Option.some.inj hr2).symm
          obtain ⟨i3, hri3, hlo3, hhi3, hone3⟩ := hrc2 c hcalpha
          rw [hrr2, hy] at hri3
          have hi3e : i = i3 := Option.some.inj hri3
          have h2le : 2 ≤ i := by
            rcases Nat.lt_or_ge i 2 with hlt | hge
            · have hone1 : i3 = 1 := by omega
              have hfcon := hone3 hone1
              rw [hfef] at hfcon
              exact absurd hfcon (by decide)
            · exact hge
          refine ⟨row0, fs, hrow0, hfs, ?_⟩
          have hti : i2 = t + 1 := by omega
          rw [← hti]
          exact hi2
        · rw [if_neg h1s] at ht
          simp at ht

/-- C5: the subset construction yields a DFA whose transition table has a
row exactly for the contiguous state ids 1..number_of_states, is total over
the alphabet with in-range destinations, and keeps reject state 1 with its
full self-loop row exactly when the empty set was reached.  When it never
was, state 1 is pruned and every remaining id is shifted down by one
relative to the conversion's own intermediate numbering: the shipped table
has a row at s exactly when the conversion table has one at s+1, a state s
accepts exactly when the NFA-state set that the conversion mapped to id
s+1 meets the NFA accept states, and every shipped destination t is the
conversion's mapped id t+1 for the corresponding destination set. -/
theorem subset_construction_dfa_invariants
    (n : NFA) (clFuel loopFuel : Nat) (d : DFA) (fe : Bool)
    (h : n.to_DFA_full clFuel loopFuel = some (d, fe)) :
    (∀ s, (dget? d.transition_function s).isSome ↔ (1 ≤ s ∧ s ≤ d.number_of_states)) ∧
    (∀ s c, 1 ≤ s → s ≤ d.number_of_states → c ∈ n.alphabet →
      ∃ t, d.transition s c = some t ∧ 1 ≤ t ∧ t ≤ d.number_of_states) ∧
    (fe = true →
      dget? d.transition_function 1 = some (n.alphabet.map (fun c => (c, 1)))) ∧
    (fe = false → ∃ (S0 : Finset Nat) (co : ConvOut),
      n.get_epsilon_closure clFuel n.start_state = some S0 ∧
      n.nfa_conversion clFuel loopFuel S0 = some co ∧
      co.found_empty = false ∧
      d.number_of_states = co.number_of_states ∧
      (∀ s, (dget? d.transition_function s).isSome ↔
        (1 ≤ s ∧ (dget? co.tf (s + 1)).isSome)) ∧
      (∀ s, s ∈ d.accept_states ↔ (1 ≤ s ∧ s ≤ d.number_of_states ∧
        ∃ A, dget? co.revMapping (s + 1) = some A ∧ ∃ q ∈ A, q ∈ n.accept_states)) ∧
      (∀ s c t, d.transition s c = some t →
        ∃ row fs, dget? co.tf (s + 1) = some row ∧ dget? row c = some fs ∧
          dget? co.mapping fs = some (t + 1))) := by
  obtain ⟨hA, hB, hC, hD, _⟩ := toDFAFull_spec n clFuel loopFuel d fe h
  exact ⟨hA, hB, hC, hD⟩

/-- C6: when the conversion kept the reject state, state 1 of the produced
DFA loops to itself on every alphabet symbol, is not an accept state, and
every in-alphabet input keeps the simulation at state 1 forever. -/
theorem reject_state_is_permanent_and_never_accepts
    (n : NFA) (clFuel loopFuel : Nat) (d : DFA)
    (h : n.to_DFA_full clFuel loopFuel = some (d, true)) :
    (∀ c ∈ n.alphabet, d.transition 1 c = some 1) ∧
    1 ∉ d.accept_states ∧
    ∀ input : List Char, (∀ c ∈ input, c ∈ n.alphabet) →
      d.simulate_from 1 input = some 1 := by
  obtain ⟨_, _, hC, _, hE⟩ := toDFAFull_spec n clFuel loopFuel d true h
  have htrans : ∀ c ∈ n.alphabet, d.transition 1 c = some 1 := by
    intro c hc
    unfold DFA.transition
    rw [hC rfl]
    simp only [Option.bind_eq_bind, Option.some_bind]
    exact dget?_const_pairs n.alphabet 1 c hc
  refine ⟨htrans, hE rfl, ?_⟩
  intro input
  induction input with
  | nil => intro _; rfl
  | cons c cs ih =>
      intro hin
      simp only [DFA.simulate_from]
      rw [htrans c (hin c (List.mem_cons_self _ _))]
      simp only [Option.bind_eq_bind, Option.some_bind]
      exact ih (fun x hx => hin x (List.mem_cons_of_mem _ hx))

/-- A one-symbol NFA accepting exactly "a", used to instantiate the subset
construction theorems on a concrete input. -/
def nfaW : NFA :=
  { alphabet := ['a']
    transition_function := [(1, [('a', ({2} : Finset Nat))])]
    start_state := 1
    accept_states := [2] }

/-- The DFA that the subset construction produces from nfaW. -/
def dW : DFA :=
  { alphabet := ['a']
    number_of_states := 3
    transition_function := [(2, [('a', 3)]), (3, [('a', 1)]), (1, [('a', 1)])]
    start_state := 2
    accept_states := ({3} : Finset Nat) }

/-- A one-symbol NFA accepting a nonempty star-like language whose subset
construction never reaches the empty set, so the reject state is pruned
and the down-shift branch of the finalizer runs. -/
def nfaP : NFA :=
  { alphabet := ['a']
    transition_function := [(1, [('a', ({1} : Finset Nat))])]
    start_state := 1
    accept_states := [1] }

/-- The DFA that the subset construction produces from nfaP (after the
prune and down-shift). -/
def dP : DFA :=
  { alphabet := ['a']
    number_of_states := 1
    transition_function := [(1, [('a', 1)])]
    start_state := 1
    accept_states := ({1} : Finset Nat) }

theorem subset_construction_dfa_invariants_witness :
    nfaP.to_DFA_full 10 10 = some (dP, false) ∧
    ((∀ s, (dget? dP.transition_function s).isSome ↔ (1 ≤ s ∧ s ≤ dP.number_of_states)) ∧
     (∀ s c, 1 ≤ s → s ≤ dP.number_of_states → c ∈ nfaP.alphabet →
       ∃ t, dP.transition s c = some t ∧ 1 ≤ t ∧ t ≤ dP.number_of_states) ∧
     (false = true →
       dget? dP.transition_function 1 = some (nfaP.alphabet.map (fun c => (c, 1)))) ∧
     (false = false → ∃ (S0 : Finset Nat) (co : ConvOut),
       nfaP.get_epsilon_closure 10 nfaP.start_state = some S0 ∧
       nfaP.nfa_conversion 10 10 S0 = some co ∧
       co.found_empty = false ∧
       dP.number_of_states = co.number_of_states ∧
       (∀ s, (dget? dP.transition_function s).isSome ↔
         (1 ≤ s ∧ (dget? co.tf (s + 1)).isSome)) ∧
       (∀ s, s ∈ dP.accept_states ↔ (1 ≤ s ∧ s ≤ dP.number_of_states ∧
         ∃ A, dget? co.revMapping (s + 1) = some A ∧ ∃ q ∈ A, q ∈ nfaP.accept_states)) ∧
       (∀ s c t, dP.transition s c = some t →
         ∃ row fs, dget? co.tf (s + 1) = some row ∧ dget? row c = some fs ∧
           dget? co.mapping fs = some (t + 1)))) :=
  ⟨by decide, subset_construction_dfa_invariants nfaP 10 10 dP false (by decide)⟩

theorem reject_state_is_permanent_and_never_accepts_witness :
    nfaW.to_DFA_full 10 10 = some (dW, true) ∧
    ((∀ c ∈ nfaW.alphabet, dW.transition 1 c = some 1) ∧
     1 ∉ dW.accept_states ∧
     ∀ input : List Char, (∀ c ∈ input, c ∈ nfaW.alphabet) →
       dW.simulate_from 1 input = some 1) :=
  ⟨by decide, reject_state_is_permanent_and_never_accepts nfaW 10 10 dW (by decide)⟩

/-- A DFA over alphabet {a} that rejects everything: every transition goes
straight to the permanent reject state 1. -/
def dNo : DFA :=
  { alphabet := ['a']
    number_of_states := 2
    transition_function := [(2, [('a', 1)]), (1, [('a', 1)])]
    start_state := 2
    accept_states := (∅ : Finset Nat) }

/-- A token value wrapping dNo. -/
def tvNo : TokenValue := ⟨dNo, "t", 0⟩

theorem no_match_raises_invalid_token_and_consumes_nothing_witness :
    (∃ c ∈ ['a'], ¬ c = ' ') ∧
    (next_token [tvNo] ['a'] = (.error .invalidToken, ['a']) ∧
      next_token [tvNo] ((next_token [tvNo] ['a']).2) =
        (.error .invalidToken, ['a'])) :=
  ⟨by decide, no_match_raises_invalid_token_and_consumes_nothing [tvNo] ['a']
      (by decide) (by decide)⟩
